import Mathlib

/-!
# dakoblas/clib: the fixed-capacity linked list of `src/lib/linklist.c`

A shallow embedding of `linklist.c` / `linklist.h`.

* A `void*` payload is a natural number, `0` being `NULL`.
* A `list_node*` always points into the `nodes` array of its own list, so it is
  modelled as `Option Nat`: `none` is `NULL`, `some i` is `&list->nodes[i]`.
* The array `nodes` is held field by field: `payload i` is `nodes[i].payload`,
  `next_node i` is `nodes[i].next_node`, and so on, each a total map on indices.
  Only the indices below `MAX_LIST_NODES` are ever initialised or handed out.
  A C assignment `p->f = v` is the update of map `f` at the index of `p`.
* `int` fields are `Int`.  The statements `list->length++` and
  `list->length--` act on a 32-bit `int`: their result is taken modulo `2^32`
  into the range `-2^31 .. 2^31 - 1` (`wrap32`), the two's complement behaviour
  of the usual targets.  The other `int` values (`index`, `size`, the loop
  counter of `list_remove`) never leave `0 .. MAX_LIST_NODES`.
* The `self_ptr` field (the address of the struct itself) plays no part in any
  operation and is left out.
* Every function takes the list state and returns the new state together with
  its C return value.  `list_append` is the one function that can dereference
  a null pointer (`list->tail_node->next_node` with a null tail); it returns
  `none` there.
-/

set_option autoImplicit false
set_option linter.unusedTactic false
set_option linter.unreachableTactic false
set_option linter.unusedVariables false

namespace Linklist

/-- The macro `MAX_LIST_NODES` of `linklist.h`. -/
def MAX_LIST_NODES : Nat := 100

/-- A payload reference (`void*`); `0` is `NULL`. -/
abbrev Ptr := Nat

/-- The struct `list_node` of `linklist.h`, as the view of one array slot. -/
structure list_node where
  index : Int
  payload : Ptr
  next_node : Option Nat
  prev_node : Option Nat
  deriving DecidableEq, Repr

/-- The struct `link_list` of `linklist.h` (without `self_ptr`); the first four
fields are the array `nodes`, one map per field of `list_node`. -/
structure link_list where
  index : Nat → Int
  payload : Nat → Ptr
  next_node : Nat → Option Nat
  prev_node : Nat → Option Nat
  head_node : Option Nat
  tail_node : Option Nat
  available_nodes : Option Nat
  available_tail : Option Nat
  size : Int
  length : Int

/-- The slot `list->nodes[i]`. -/
def link_list.nodes (list : link_list) (i : Nat) : list_node :=
  { index := list.index i, payload := list.payload i,
    next_node := list.next_node i, prev_node := list.prev_node i }

/-- Assignment to one array cell: `f[i] = v`. -/
def setAt {α : Type} (f : Nat → α) (i : Nat) (v : α) : Nat → α :=
  fun j => if j = i then v else f j

/-- The `for` loop of `init_link_list`, run for `i = 0, ..., k-1`. -/
def init_loop (list : link_list) : Nat → link_list
  | 0 => list
  | k + 1 =>
    let l := init_loop list k
    { l with
      index := setAt l.index k (k : Int)
      payload := setAt l.payload k 0
      next_node := setAt l.next_node k (some (k + 1))
      prev_node := setAt l.prev_node k none }

/-- The function `init_link_list`: every node goes on the available queue. -/
def init_link_list (list : link_list) : link_list × Int :=
  let l := init_loop list (MAX_LIST_NODES - 1)
  ({ index := setAt l.index (MAX_LIST_NODES - 1) ((MAX_LIST_NODES - 1 : Nat) : Int)
     payload := setAt l.payload (MAX_LIST_NODES - 1) 0
     next_node := setAt l.next_node (MAX_LIST_NODES - 1) none
     prev_node := setAt l.prev_node (MAX_LIST_NODES - 1) none
     head_node := none
     tail_node := none
     available_nodes := some 0
     available_tail := some (MAX_LIST_NODES - 1)
     size := (MAX_LIST_NODES : Int)
     length := 0 }, 0)

/-- The value a 32-bit `int` holds after an arithmetic result `x`: `x` reduced
modulo `2^32` into `-2^31 .. 2^31 - 1`. -/
def wrap32 (x : Int) : Int := (x + 2147483648) % 4294967296 - 2147483648

/-- The function `deq_new_node`: take the head of the available queue. -/
def deq_new_node (list : link_list) : link_list × Option Nat :=
  match list.available_nodes with
  | none => (list, none)
  | some r =>
    let l1 := { list with available_nodes := list.next_node r }
    ({ l1 with next_node := setAt l1.next_node r none }, some r)

/-- The function `enq_new_node`: clear `node` and link it behind `available_tail`. -/
def enq_new_node (list : link_list) (node : Nat) : link_list :=
  let l1 := { list with payload := setAt list.payload node 0 }
  let l2 := { l1 with next_node := setAt l1.next_node node none }
  let l3 := { l2 with prev_node := setAt l2.prev_node node none }
  match l3.available_tail with
  | none => { l3 with available_tail := some node }
  | some t =>
    let l4 := { l3 with next_node := setAt l3.next_node t (some node) }
    { l4 with available_tail := some node }

/-- The function `list_append`; `none` is the null dereference of `tail_node`. -/
def list_append (list : link_list) (payload : Ptr) : Option (link_list × Int) :=
  match deq_new_node list with
  | (l0, none) => some (l0, -1)
  | (l0, some new) =>
    let l1 := { l0 with payload := setAt l0.payload new payload }
    let l2 := { l1 with length := wrap32 (l1.length + 1) }
    match l2.head_node with
    | none => some ({ l2 with head_node := some new, tail_node := some new }, 0)
    | some _ =>
      match l2.tail_node with
      | none => none
      | some t =>
        let l3 := { l2 with prev_node := setAt l2.prev_node new (some t) }
        let l4 := { l3 with next_node := setAt l3.next_node t (some new) }
        some ({ l4 with tail_node := some new }, 0)

/-- The function `list_pop`. -/
def list_pop (list : link_list) : link_list × Ptr :=
  match list.head_node with
  | none => (list, 0)
  | some node =>
    let ret_ptr := list.payload node
    let l1 := { list with payload := setAt list.payload node 0 }
    let l2 := { l1 with head_node := l1.next_node node }
    let l3 :=
      match l2.next_node node with
      | none => { l2 with tail_node := l2.head_node }
      | some nx => { l2 with prev_node := setAt l2.prev_node nx none }
    let l4 := { l3 with next_node := setAt l3.next_node node none }
    let l5 := enq_new_node l4 node
    ({ l5 with length := wrap32 (l5.length - 1) }, ret_ptr)

/-- The `while` loop of `list_remove`, with `n` the iterations `i < list->length`
still allows and the second argument `current_node`; the result is `target_node`
(`none` when `found` stays 0). -/
def remove_scan (list : link_list) (target : Ptr) : Nat → Option Nat → Option Nat
  | 0, _ => none
  | _ + 1, none => none
  | n + 1, some c =>
    if list.payload c = target then some c
    else remove_scan list target n (list.next_node c)

/-- The function `list_remove`. -/
def list_remove (list : link_list) (target : Ptr) : link_list × Ptr :=
  match list.head_node with
  | none => (list, 0)
  | some h =>
    match remove_scan list target list.length.toNat (some h) with
    | none => (list, 0)
    | some tn =>
      let ret_ptr := list.payload tn
      let l1 := { list with payload := setAt list.payload tn 0 }
      let l2 :=
        match l1.prev_node tn with
        | some p => { l1 with next_node := setAt l1.next_node p (l1.next_node tn) }
        | none => { l1 with head_node := l1.next_node tn }
      let l3 :=
        match l2.next_node tn with
        | some nx => { l2 with prev_node := setAt l2.prev_node nx (l2.prev_node tn) }
        | none => { l2 with tail_node := l2.prev_node tn }
      let l4 := { l3 with next_node := setAt l3.next_node tn none }
      let l5 := { l4 with prev_node := setAt l4.prev_node tn none }
      let l6 := enq_new_node l5 tn
      ({ l6 with length := wrap32 (l6.length - 1) }, ret_ptr)

/-- The function `list_pop_tail`. -/
def list_pop_tail (list : link_list) : link_list × Ptr :=
  match list.tail_node with
  | none => (list, 0)
  | some node =>
    let ret_ptr := list.payload node
    let l1 := { list with payload := setAt list.payload node 0 }
    let l2 := { l1 with tail_node := l1.prev_node node }
    let l3 :=
      match l2.prev_node node with
      | none => { l2 with head_node := l2.tail_node }
      | some pv => { l2 with next_node := setAt l2.next_node pv none }
    let l4 := { l3 with prev_node := setAt l3.prev_node node none }
    let l5 := enq_new_node l4 node
    ({ l5 with length := wrap32 (l5.length - 1) }, ret_ptr)

/-- The function `list_push`. -/
def list_push (list : link_list) (payload : Ptr) : link_list × Int :=
  match deq_new_node list with
  | (l0, none) => (l0, -1)
  | (l0, some new) =>
    let l1 := { l0 with payload := setAt l0.payload new payload }
    let l2 := { l1 with length := wrap32 (l1.length + 1) }
    match l2.head_node with
    | none => ({ l2 with head_node := some new, tail_node := some new }, 0)
    | some h =>
      let l3 := { l2 with next_node := setAt l2.next_node new (some h) }
      let l4 := { l3 with prev_node := setAt l3.prev_node h (some new) }
      ({ l4 with head_node := some new }, 0)

/-- The function `list_peek`; it writes nothing, so the state comes back as it was. -/
def list_peek (list : link_list) : link_list × Ptr :=
  match list.head_node with
  | none => (list, 0)
  | some h => (list, list.payload h)

/-- A call of one of the six public operations. -/
inductive Op where
  | append (payload : Ptr)
  | push (payload : Ptr)
  | pop
  | pop_tail
  | remove (target : Ptr)
  | peek
  deriving DecidableEq, Repr

/-- What a call returns: an `int` status or a `void*`. -/
inductive Ret where
  | status (code : Int)
  | ptr (p : Ptr)
  deriving DecidableEq, Repr

/-- Run one public operation. -/
def step (list : link_list) : Op → Option (link_list × Ret)
  | Op.append p => (list_append list p).map fun r => (r.1, Ret.status r.2)
  | Op.push p => some ((list_push list p).1, Ret.status (list_push list p).2)
  | Op.pop => some ((list_pop list).1, Ret.ptr (list_pop list).2)
  | Op.pop_tail => some ((list_pop_tail list).1, Ret.ptr (list_pop_tail list).2)
  | Op.remove t => some ((list_remove list t).1, Ret.ptr (list_remove list t).2)
  | Op.peek => some ((list_peek list).1, Ret.ptr (list_peek list).2)

/-- Run a sequence of public operations, collecting the return values. -/
def run (list : link_list) : List Op → Option (link_list × List Ret)
  | [] => some (list, [])
  | op :: ops =>
    match step list op with
    | none => none
    | some (l1, r) =>
      match run l1 ops with
      | none => none
      | some (l2, rs) => some (l2, r :: rs)

/-- A list state with every field zeroed (what a `static` struct starts as). -/
def zeroed : link_list :=
  { index := fun _ => 0
    payload := fun _ => 0
    next_node := fun _ => none
    prev_node := fun _ => none
    head_node := none
    tail_node := none
    available_nodes := none
    available_tail := none
    size := 0
    length := 0 }

/-- The freshly initialised container obtained from prior content `list`. -/
def fresh (list : link_list) : link_list := (init_link_list list).1

/-- Run `n` calls of `list_pop`, collecting what they return. -/
def pops : Nat → link_list → link_list × List Ptr
  | 0, s => (s, [])
  | n + 1, s => ((pops n (list_pop s).1).1, (list_pop s).2 :: (pops n (list_pop s).1).2)

/-- Forward chain: entered through pointer `h`, the nodes `idxs` are linked by
`next_node` in this order and hold the payloads `vals`; the `next_node` of the
last one is `e` (with no node, `h` is `e`). -/
def Seg (s : link_list) : Option Nat → Option Nat → List Nat → List Ptr → Prop
  | h, e, [], [] => h = e
  | h, e, i :: is, v :: vs => h = some i ∧ s.payload i = v ∧ Seg s (s.next_node i) e is vs
  | _, _, _, _ => False

/-- Doubly linked segment: as `Seg`, and moreover the `prev_node` of the first
node is `p`, each later node points back to the one before it, and `t` is the
last node (with no node, `t` is `p`). -/
def Dlseg (s : link_list) :
    Option Nat → Option Nat → Option Nat → Option Nat → List Nat → List Ptr → Prop
  | h, p, e, t, [], [] => h = e ∧ p = t
  | h, p, e, t, i :: is, v :: vs =>
    h = some i ∧ s.payload i = v ∧ s.prev_node i = p ∧
      Dlseg s (s.next_node i) (some i) e t is vs
  | _, _, _, _, _, _ => False

/-- The state after `k` insertions and no removal on a fresh list: nodes
`k, k+1, ...` are still queued as `init_link_list` left them, and the active
chain is the doubly linked list `idxs` holding `vals`. -/
structure InsState (s : link_list) (k : Nat) (idxs : List Nat) (vals : List Ptr) : Prop where
  k_le : k ≤ MAX_LIST_NODES
  avail : s.available_nodes = if k < MAX_LIST_NODES then some k else none
  atail : s.available_tail = some (MAX_LIST_NODES - 1)
  free_prev : ∀ i, k ≤ i → i < MAX_LIST_NODES → s.prev_node i = none
  free_next : ∀ i, k ≤ i → i < MAX_LIST_NODES →
    s.next_node i = if i + 1 < MAX_LIST_NODES then some (i + 1) else none
  chain : Dlseg s s.head_node none none s.tail_node idxs vals
  lt : ∀ i ∈ idxs, i < k
  nodup : idxs.Nodup
  len : s.length = (k : Int)
  cnt : idxs.length = k

/-- Whether the call is an insertion (`list_append` or `list_push`). -/
def Op.isInsert : Op → Bool
  | Op.append _ => true
  | Op.push _ => true
  | _ => false

/-- The payloads `list_remove` can meet: those of the first `n` nodes on the
`next_node` chain from `current`. -/
def chain_payloads (list : link_list) : Nat → Option Nat → List Ptr
  | 0, _ => []
  | _ + 1, none => []
  | n + 1, some c => list.payload c :: chain_payloads list n (list.next_node c)

/-- The references stored in the list: the payloads of the first `length`
nodes of the chain that starts at `head_node`. -/
def stored (list : link_list) : List Ptr :=
  chain_payloads list list.length.toNat list.head_node

/-- The references `1, 2, ..., MAX_LIST_NODES`, each appended once: the calls
that fill a fresh list. -/
def fill_ops : List Op :=
  (List.range MAX_LIST_NODES).map fun i => Op.append (i + 1)

/-- A well-formed list: the active chain is the doubly linked list `idxs`
holding `vals`, the available queue runs through `free` (payload and `prev_node`
`NULL`, ending at `available_tail` when it is not empty), and every node of the
array is on exactly one of the two. -/
structure Wf (s : link_list) (idxs : List Nat) (vals : List Ptr) (free : List Nat) : Prop where
  chain : Dlseg s s.head_node none none s.tail_node idxs vals
  fchain : Seg s s.available_nodes none free (List.replicate free.length 0)
  fprev : ∀ i ∈ free, s.prev_node i = none
  ftail : free ≠ [] → s.available_tail = free.getLast?
  perm : (idxs ++ free).Perm (List.range MAX_LIST_NODES)
  len : s.length = (idxs.length : Int)

/-- The abstract list model of one call: `list_append` adds at the back,
`list_push` at the front, `list_pop` removes and returns the front (or `NULL`),
`list_pop_tail` the back (or `NULL`), `list_remove` erases and returns the first
element identical to the target (or `NULL`), and `list_peek` returns the front
(or `NULL`). -/
def model_step (l : List Ptr) : Op → List Ptr × Ret
  | Op.append p => (l ++ [p], Ret.status 0)
  | Op.push p => (p :: l, Ret.status 0)
  | Op.pop => (l.tail, Ret.ptr (l.head?.getD 0))
  | Op.pop_tail => (l.dropLast, Ret.ptr (l.getLast?.getD 0))
  | Op.remove t => (l.erase t, Ret.ptr (if t ∈ l then t else 0))
  | Op.peek => (l, Ret.ptr (l.head?.getD 0))

/-- The abstract list model of a sequence of calls. -/
def model_run (l : List Ptr) : List Op → List Ptr × List Ret
  | [] => (l, [])
  | op :: ops =>
    ((model_run (model_step l op).1 ops).1,
      (model_step l op).2 :: (model_run (model_step l op).1 ops).2)

/-- The payloads met walking back from `current` along `prev_node`, at most
`n` nodes. -/
def chain_payloads_back (list : link_list) : Nat → Option Nat → List Ptr
  | 0, _ => []
  | _ + 1, none => []
  | n + 1, some c => list.payload c :: chain_payloads_back list n (list.prev_node c)

/-- The nodes met walking from `current` along `next_node`, at most `n` of them. -/
def chain_nodes (list : link_list) : Nat → Option Nat → List Nat
  | 0, _ => []
  | _ + 1, none => []
  | n + 1, some c => c :: chain_nodes list n (list.next_node c)

/-- The nodes met walking back from `current` along `prev_node`, at most `n`. -/
def chain_nodes_back (list : link_list) : Nat → Option Nat → List Nat
  | 0, _ => []
  | _ + 1, none => []
  | n + 1, some c => c :: chain_nodes_back list n (list.prev_node c)

/-- The head-to-tail sequence of stored payloads: the active chain read from
`head_node` by `next_node` links (the array has `MAX_LIST_NODES` nodes, so a
chain that ends is read in full). -/
def contents (list : link_list) : List Ptr :=
  chain_payloads list MAX_LIST_NODES list.head_node

/-- The active chain read from `tail_node` by `prev_node` links. -/
def contents_back (list : link_list) : List Ptr :=
  chain_payloads_back list MAX_LIST_NODES list.tail_node

/-- What holds of every state reached from `init_link_list`: either the list is
well formed with a node still available, or `available_nodes` is `NULL` (the
list is or has been full). -/
def Inv (s : link_list) : Prop :=
  (∃ idxs vals free, Wf s idxs vals free ∧ free ≠ []) ∨ s.available_nodes = none

/-- The full list: a fresh list after the calls of `fill_ops`. -/
def full_list : link_list :=
  ((run (fresh zeroed) fill_ops).map Prod.fst).getD zeroed

/-- The list that was filled and then emptied again by `MAX_LIST_NODES` calls
of `list_pop`. -/
def emptied_list : link_list := (pops MAX_LIST_NODES full_list).1

/-- A list whose `next_node` chain from `head_node` runs through the nodes `cyc`
(two or more) and ends there, with `available_tail` on the last of them: the
shape a list has once it was full and has been emptied by `list_pop`.  The head
is not `NULL`, and `list_pop` moves the first node of the chain behind the
last. -/
def Recycling (s : link_list) (cyc : List Nat) : Prop :=
  (∃ vals, Seg s s.head_node none cyc vals) ∧ s.available_tail = cyc.getLast? ∧
    cyc.Nodup ∧ 2 ≤ cyc.length

/-! ## Field-by-field effect of each operation -/

theorem setAt_apply {α : Type} (f : Nat → α) (i j : Nat) (v : α) :
    setAt f i v j = if j = i then v else f j := rfl

theorem wrap32_of_range (x : Int) (h1 : -2147483648 ≤ x) (h2 : x < 2147483648) :
    wrap32 x = x := by
  unfold wrap32
  omega

theorem wrap32_range (x : Int) : -2147483648 ≤ wrap32 x ∧ wrap32 x < 2147483648 := by
  unfold wrap32
  omega

theorem wrap32_add (a b : Int) : wrap32 (wrap32 a + b) = wrap32 (a + b) := by
  unfold wrap32
  omega

theorem wrap32_succ_small (k : Nat) (hk : k < MAX_LIST_NODES) :
    wrap32 ((k : Int) + 1) = ((k + 1 : Nat) : Int) := by
  have h : k < 100 := hk
  unfold wrap32
  push_cast
  omega

theorem wrap32_pred_small (k : Nat) (hk : k ≤ MAX_LIST_NODES) :
    wrap32 ((k : Int) - 1) = (k : Int) - 1 := by
  have h : k ≤ 100 := hk
  unfold wrap32
  omega

theorem list_append_full (s : link_list) (p : Ptr) (ha : s.available_nodes = none) :
    list_append s p = some (s, -1) := by
  simp [list_append, deq_new_node, ha]

theorem list_append_first (s : link_list) (p : Ptr) (n : Nat)
    (ha : s.available_nodes = some n) (hh : s.head_node = none) :
    ∃ s1, list_append s p = some (s1, 0) ∧ s1.head_node = some n ∧ s1.tail_node = some n ∧
      s1.available_nodes = s.next_node n ∧ s1.available_tail = s.available_tail ∧
      s1.length = wrap32 (s.length + 1) ∧ s1.size = s.size ∧ s1.index = s.index ∧
      (∀ j, s1.payload j = if j = n then p else s.payload j) ∧
      (∀ j, s1.next_node j = if j = n then none else s.next_node j) ∧
      (∀ j, s1.prev_node j = s.prev_node j) := by
  simp only [list_append, deq_new_node, ha, hh]
  exact ⟨_, rfl, rfl, rfl, rfl, rfl, rfl, rfl, rfl, fun j => rfl, fun j => rfl, fun j => rfl⟩

theorem list_append_more (s : link_list) (p : Ptr) (n h t : Nat)
    (ha : s.available_nodes = some n) (hh : s.head_node = some h) (ht : s.tail_node = some t) :
    ∃ s1, list_append s p = some (s1, 0) ∧ s1.head_node = some h ∧ s1.tail_node = some n ∧
      s1.available_nodes = s.next_node n ∧ s1.available_tail = s.available_tail ∧
      s1.length = wrap32 (s.length + 1) ∧ s1.size = s.size ∧ s1.index = s.index ∧
      (∀ j, s1.payload j = if j = n then p else s.payload j) ∧
      (∀ j, s1.next_node j =
        if j = t then some n else if j = n then none else s.next_node j) ∧
      (∀ j, s1.prev_node j = if j = n then some t else s.prev_node j) := by
  simp only [list_append, deq_new_node, ha, hh, ht]
  exact ⟨_, rfl, rfl, rfl, rfl, rfl, rfl, rfl, rfl, fun j => rfl, fun j => rfl, fun j => rfl⟩

theorem list_push_full (s : link_list) (p : Ptr) (ha : s.available_nodes = none) :
    list_push s p = (s, -1) := by
  simp [list_push, deq_new_node, ha]

theorem list_push_first (s : link_list) (p : Ptr) (n : Nat)
    (ha : s.available_nodes = some n) (hh : s.head_node = none) :
    ∃ s1, list_push s p = (s1, 0) ∧ s1.head_node = some n ∧ s1.tail_node = some n ∧
      s1.available_nodes = s.next_node n ∧ s1.available_tail = s.available_tail ∧
      s1.length = wrap32 (s.length + 1) ∧ s1.size = s.size ∧ s1.index = s.index ∧
      (∀ j, s1.payload j = if j = n then p else s.payload j) ∧
      (∀ j, s1.next_node j = if j = n then none else s.next_node j) ∧
      (∀ j, s1.prev_node j = s.prev_node j) := by
  simp only [list_push, deq_new_node, ha, hh]
  exact ⟨_, rfl, rfl, rfl, rfl, rfl, rfl, rfl, rfl, fun j => rfl, fun j => rfl, fun j => rfl⟩

theorem list_push_more (s : link_list) (p : Ptr) (n h : Nat)
    (ha : s.available_nodes = some n) (hh : s.head_node = some h) :
    ∃ s1, list_push s p = (s1, 0) ∧ s1.head_node = some n ∧ s1.tail_node = s.tail_node ∧
      s1.available_nodes = s.next_node n ∧ s1.available_tail = s.available_tail ∧
      s1.length = wrap32 (s.length + 1) ∧ s1.size = s.size ∧ s1.index = s.index ∧
      (∀ j, s1.payload j = if j = n then p else s.payload j) ∧
      (∀ j, s1.next_node j = if j = n then some h else s.next_node j) ∧
      (∀ j, s1.prev_node j = if j = h then some n else s.prev_node j) := by
  simp only [list_push, deq_new_node, ha, hh]
  refine ⟨_, rfl, rfl, rfl, rfl, rfl, rfl, rfl, rfl, fun j => rfl, fun j => ?_, fun j => rfl⟩
  simp only [setAt_apply]
  split_ifs <;> rfl

theorem list_pop_none (s : link_list) (h : s.head_node = none) : list_pop s = (s, 0) := by
  simp [list_pop, h]

theorem list_pop_some (s : link_list) (i : Nat) (h : s.head_node = some i) :
    (list_pop s).2 = s.payload i ∧
    (list_pop s).1.head_node = s.next_node i ∧
    (list_pop s).1.tail_node = (if s.next_node i = none then none else s.tail_node) ∧
    (list_pop s).1.available_nodes = s.available_nodes ∧
    (list_pop s).1.available_tail = some i ∧
    (list_pop s).1.length = wrap32 (s.length - 1) ∧
    (∀ j, (list_pop s).1.payload j = if j = i then 0 else s.payload j) ∧
    (∀ j, (list_pop s).1.next_node j =
      if s.available_tail = some j then some i else if j = i then none else s.next_node j) ∧
    (∀ j, (list_pop s).1.prev_node j =
      if j = i then none else if s.next_node i = some j then none else s.prev_node j) := by
  simp only [list_pop, h, enq_new_node]
  rcases hn : s.next_node i with _ | nx <;> rcases ht : s.available_tail with _ | t <;>
    simp [hn, ht, setAt_apply] <;>
    (repeat' apply And.intro) <;> (try intro j) <;>
    split_ifs <;> (try subst_vars) <;> (try rfl) <;> (try contradiction) <;> (try simp_all)

theorem list_remove_empty (s : link_list) (x : Ptr) (h : s.head_node = none) :
    list_remove s x = (s, 0) := by
  simp [list_remove, h]

theorem list_remove_missing (s : link_list) (x : Ptr)
    (h : remove_scan s x s.length.toNat s.head_node = none) :
    list_remove s x = (s, 0) := by
  cases hh : s.head_node with
  | none => simp [list_remove, hh]
  | some i =>
    rw [hh] at h
    simp [list_remove, hh, h]

theorem list_remove_found (s : link_list) (x : Ptr) (h tn : Nat) (hh : s.head_node = some h)
    (hs : remove_scan s x s.length.toNat (some h) = some tn) :
    (list_remove s x).2 = s.payload tn ∧
    (list_remove s x).1.head_node =
      (if s.prev_node tn = none then s.next_node tn else s.head_node) ∧
    (list_remove s x).1.tail_node =
      (if s.next_node tn = none then s.prev_node tn else s.tail_node) ∧
    (list_remove s x).1.available_nodes = s.available_nodes ∧
    (list_remove s x).1.available_tail = some tn ∧
    (list_remove s x).1.length = wrap32 (s.length - 1) ∧
    (∀ j, (list_remove s x).1.payload j = if j = tn then 0 else s.payload j) ∧
    (∀ j, (list_remove s x).1.next_node j =
      if s.available_tail = some j then some tn else if j = tn then none
      else if s.prev_node tn = some j then s.next_node tn
      else s.next_node j) ∧
    (∀ j, (list_remove s x).1.prev_node j =
      if j = tn then none else if s.next_node tn = some j then s.prev_node tn
      else s.prev_node j) := by
  simp only [list_remove, hh, hs, enq_new_node]
  rcases hp : s.prev_node tn with _ | p <;> rcases hn : s.next_node tn with _ | nx <;>
    rcases ht : s.available_tail with _ | t <;>
    simp [hp, hn, ht, setAt_apply] <;>
    (repeat' apply And.intro) <;> (try intro j) <;>
    split_ifs <;> (try subst_vars) <;> (try rfl) <;> (try contradiction) <;> (try simp_all)

/-! ## Chains of nodes -/

theorem dlseg_length (s : link_list) :
    ∀ (idxs : List Nat) (vals : List Ptr) (h p e t : Option Nat),
      Dlseg s h p e t idxs vals → idxs.length = vals.length
  | [], [], _, _, _, _, _ => rfl
  | [], _ :: _, _, _, _, _, hd => by simp [Dlseg] at hd
  | _ :: _, [], _, _, _, _, hd => by simp [Dlseg] at hd
  | i :: is, v :: vs, _, _, _, _, hd => by
    simp only [Dlseg] at hd
    simp [dlseg_length s is vs _ _ _ _ hd.2.2.2]

theorem dlseg_last_mem (s : link_list) :
    ∀ (idxs : List Nat) (vals : List Ptr) (h p e : Option Nat) (t : Nat),
      Dlseg s h p e (some t) idxs vals → idxs ≠ [] → t ∈ idxs
  | [], _, _, _, _, _, _, hne => absurd rfl hne
  | _ :: _, [], _, _, _, _, hd, _ => by simp [Dlseg] at hd
  | i :: is, v :: vs, _, _, _, t, hd, _ => by
    simp only [Dlseg] at hd
    cases is with
    | nil =>
      cases vs with
      | nil =>
        simp only [Dlseg] at hd
        have : i = t := Option.some.inj hd.2.2.2.2
        simp [this]
      | cons w ws => simp [Dlseg] at hd
    | cons i2 is2 =>
      exact List.mem_cons_of_mem _ (dlseg_last_mem s (i2 :: is2) vs _ _ _ t hd.2.2.2 (by simp))

theorem dlseg_frame (s s1 : link_list) :
    ∀ (idxs : List Nat) (vals : List Ptr) (h p e t : Option Nat),
      (∀ j ∈ idxs, s1.payload j = s.payload j ∧ s1.next_node j = s.next_node j ∧
        s1.prev_node j = s.prev_node j) →
      Dlseg s h p e t idxs vals → Dlseg s1 h p e t idxs vals
  | [], [], _, _, _, _, _, hd => by simpa [Dlseg] using hd
  | [], _ :: _, _, _, _, _, _, hd => by simp [Dlseg] at hd
  | _ :: _, [], _, _, _, _, _, hd => by simp [Dlseg] at hd
  | i :: is, v :: vs, _, _, _, _, hf, hd => by
    simp only [Dlseg] at hd ⊢
    obtain ⟨h1, h2, h3⟩ := hf i (by simp)
    refine ⟨hd.1, by rw [h1]; exact hd.2.1, by rw [h3]; exact hd.2.2.1, ?_⟩
    rw [h2]
    exact dlseg_frame s s1 is vs _ _ _ _ (fun j hj => hf j (List.mem_cons_of_mem _ hj)) hd.2.2.2

theorem dlseg_relast (s s1 : link_list) (e e1 : Option Nat) (t : Nat) :
    ∀ (idxs : List Nat) (vals : List Ptr) (h p : Option Nat),
      Dlseg s h p e (some t) idxs vals → idxs ≠ [] → idxs.Nodup →
      (∀ j ∈ idxs, s1.payload j = s.payload j ∧ s1.prev_node j = s.prev_node j) →
      (∀ j ∈ idxs, j ≠ t → s1.next_node j = s.next_node j) →
      s1.next_node t = e1 → Dlseg s1 h p e1 (some t) idxs vals
  | [], _, _, _, _, hne, _, _, _, _ => absurd rfl hne
  | _ :: _, [], _, _, hd, _, _, _, _, _ => by simp [Dlseg] at hd
  | i :: is, v :: vs, _, _, hd, _, hnd, hf, hn, ht => by
    simp only [Dlseg] at hd ⊢
    obtain ⟨h1, h3⟩ := hf i (by simp)
    refine ⟨hd.1, by rw [h1]; exact hd.2.1, by rw [h3]; exact hd.2.2.1, ?_⟩
    cases is with
    | nil =>
      cases vs with
      | nil =>
        simp only [Dlseg] at hd ⊢
        have hit : i = t := Option.some.inj hd.2.2.2.2
        subst hit
        exact ⟨ht, rfl⟩
      | cons w ws => simp [Dlseg] at hd
    | cons i2 is2 =>
      have htm : t ∈ i2 :: is2 := dlseg_last_mem s (i2 :: is2) vs _ _ _ t hd.2.2.2 (by simp)
      have hit : i ≠ t := by
        intro h
        subst h
        exact (List.nodup_cons.mp hnd).1 htm
      rw [hn i (by simp) hit]
      exact dlseg_relast s s1 e e1 t (i2 :: is2) vs _ _ hd.2.2.2 (by simp)
        (List.nodup_cons.mp hnd).2 (fun j hj => hf j (List.mem_cons_of_mem _ hj))
        (fun j hj => hn j (List.mem_cons_of_mem _ hj)) ht

theorem dlseg_append (s : link_list) :
    ∀ (xs : List Nat) (vs : List Ptr) (ys : List Nat) (ws : List Ptr) (h p m q e t : Option Nat),
      Dlseg s h p m q xs vs → Dlseg s m q e t ys ws → Dlseg s h p e t (xs ++ ys) (vs ++ ws)
  | [], [], _, _, _, _, _, _, _, _, h1, h2 => by
    simp only [Dlseg] at h1
    obtain ⟨rfl, rfl⟩ := h1
    simpa using h2
  | [], _ :: _, _, _, _, _, _, _, _, _, h1, _ => by simp [Dlseg] at h1
  | _ :: _, [], _, _, _, _, _, _, _, _, h1, _ => by simp [Dlseg] at h1
  | i :: is, v :: vs, ys, ws, _, _, _, _, _, _, h1, h2 => by
    simp only [Dlseg, List.cons_append] at h1 ⊢
    exact ⟨h1.1, h1.2.1, h1.2.2.1, dlseg_append s is vs ys ws _ _ _ _ _ _ h1.2.2.2 h2⟩

/-! ## Insertions on a fresh list -/

theorem init_loop_frame (l : link_list) (k : Nat) :
    (init_loop l k).head_node = l.head_node ∧ (init_loop l k).tail_node = l.tail_node := by
  induction k with
  | zero => exact ⟨rfl, rfl⟩
  | succ k ih => simpa [init_loop] using ih

theorem init_loop_next (l : link_list) (k i : Nat) :
    (init_loop l k).next_node i = if i < k then some (i + 1) else l.next_node i := by
  induction k with
  | zero => simp [init_loop]
  | succ k ih =>
    simp only [init_loop, setAt_apply, ih]
    split_ifs <;> first | rfl | (subst_vars; rfl) | (exfalso; omega)

theorem init_loop_prev (l : link_list) (k i : Nat) :
    (init_loop l k).prev_node i = if i < k then none else l.prev_node i := by
  induction k with
  | zero => simp [init_loop]
  | succ k ih =>
    simp only [init_loop, setAt_apply, ih]
    split_ifs <;> first | rfl | (exfalso; omega)

theorem init_loop_payload (l : link_list) (k i : Nat) :
    (init_loop l k).payload i = if i < k then 0 else l.payload i := by
  induction k with
  | zero => simp [init_loop]
  | succ k ih =>
    simp only [init_loop, setAt_apply, ih]
    split_ifs <;> first | rfl | (exfalso; omega)

theorem init_loop_index (l : link_list) (k i : Nat) :
    (init_loop l k).index i = if i < k then (i : Int) else l.index i := by
  induction k with
  | zero => simp [init_loop]
  | succ k ih =>
    simp only [init_loop, setAt_apply, ih]
    split_ifs <;> first | rfl | (subst_vars; rfl) | (exfalso; omega)

theorem MAX_LIST_NODES_pos : 0 < MAX_LIST_NODES := by decide

theorem fresh_next (l : link_list) (i : Nat) (hi : i < MAX_LIST_NODES) :
    (fresh l).next_node i = if i + 1 < MAX_LIST_NODES then some (i + 1) else none := by
  simp only [fresh, init_link_list, setAt_apply, init_loop_next]
  split_ifs <;> first | rfl | (exfalso; omega)

theorem fresh_prev (l : link_list) (i : Nat) (hi : i < MAX_LIST_NODES) :
    (fresh l).prev_node i = none := by
  simp only [fresh, init_link_list, setAt_apply, init_loop_prev]
  split_ifs <;> first | rfl | (exfalso; omega)

theorem fresh_payload (l : link_list) (i : Nat) (hi : i < MAX_LIST_NODES) :
    (fresh l).payload i = 0 := by
  simp only [fresh, init_link_list, setAt_apply, init_loop_payload]
  split_ifs <;> first | rfl | (exfalso; omega)

theorem insState_fresh (l : link_list) : InsState (fresh l) 0 [] [] where
  k_le := Nat.zero_le _
  avail := by simp [fresh, init_link_list, MAX_LIST_NODES_pos]
  atail := rfl
  free_prev := fun i _ hi => fresh_prev l i hi
  free_next := fun i _ hi => fresh_next l i hi
  chain := by simp [Dlseg, fresh, init_link_list]
  lt := by simp
  nodup := List.nodup_nil
  len := rfl
  cnt := rfl

theorem dlseg_last_some (s : link_list) :
    ∀ (idxs : List Nat) (vals : List Ptr) (h p e t : Option Nat),
      Dlseg s h p e t idxs vals → idxs ≠ [] → ∃ t0, t = some t0 ∧ t0 ∈ idxs
  | [], _, _, _, _, _, _, hne => absurd rfl hne
  | _ :: _, [], _, _, _, _, hd, _ => by simp [Dlseg] at hd
  | i :: is, v :: vs, _, _, _, t, hd, _ => by
    simp only [Dlseg] at hd
    cases is with
    | nil =>
      cases vs with
      | nil =>
        simp only [Dlseg] at hd
        exact ⟨i, hd.2.2.2.2.symm, by simp⟩
      | cons w ws => simp [Dlseg] at hd
    | cons i2 is2 =>
      obtain ⟨t0, h1, h2⟩ := dlseg_last_some s (i2 :: is2) vs _ _ _ t hd.2.2.2 (by simp)
      exact ⟨t0, h1, List.mem_cons_of_mem _ h2⟩

theorem insState_append (s : link_list) (k : Nat) (idxs : List Nat) (vals : List Ptr) (p : Ptr)
    (hs : InsState s k idxs vals) (hk : k < MAX_LIST_NODES) :
    ∃ s1, list_append s p = some (s1, 0) ∧ InsState s1 (k + 1) (idxs ++ [k]) (vals ++ [p]) := by
  have ha : s.available_nodes = some k := by rw [hs.avail, if_pos hk]
  have hchain := hs.chain
  cases idxs with
  | nil =>
    cases vals with
    | cons w ws => simp [Dlseg] at hchain
    | nil =>
      simp only [Dlseg] at hchain
      obtain ⟨s1, h0, hh, ht, hav, hat, hl, hsz, hidx, hp, hn, hpv⟩ :=
        list_append_first s p k ha hchain.1
      refine ⟨s1, h0, ?_⟩
      have hk0 : k = 0 := hs.cnt.symm
      refine ⟨hk, ?_, ?_, ?_, ?_, ?_, ?_, ?_, ?_, ?_⟩
      · rw [hav, hs.free_next k (le_refl k) hk]
      · rw [hat, hs.atail]
      · intro i h1 h2
        rw [hpv]
        exact hs.free_prev i (by omega) h2
      · intro i h1 h2
        rw [hn, if_neg (by omega)]
        exact hs.free_next i (by omega) h2
      · simp only [List.nil_append, Dlseg]
        refine ⟨hh, ?_, ?_, ?_, ht.symm⟩
        · rw [hp, if_pos rfl]
        · rw [hpv]
          exact hs.free_prev k (le_refl k) hk
        · rw [hn, if_pos rfl]
      · simp
      · simp
      · rw [hl, hs.len, wrap32_succ_small k hk]
      · simp [hk0]
  | cons i0 is =>
    have hne : i0 :: is ≠ [] := by simp
    obtain ⟨t, htl, htm⟩ := dlseg_last_some s _ _ _ _ _ _ hchain hne
    have hhd : s.head_node = some i0 := by
      cases vals with
      | nil => simp [Dlseg] at hchain
      | cons w ws =>
        simp only [Dlseg] at hchain
        exact hchain.1
    obtain ⟨s1, h0, hh, ht, hav, hat, hl, hsz, hidx, hp, hn, hpv⟩ :=
      list_append_more s p k i0 t ha hhd htl
    have htk : t < k := hs.lt t htm
    refine ⟨s1, h0, ?_⟩
    refine ⟨hk, ?_, ?_, ?_, ?_, ?_, ?_, ?_, ?_, ?_⟩
    · rw [hav, hs.free_next k (le_refl k) hk]
    · rw [hat, hs.atail]
    · intro i h1 h2
      rw [hpv, if_neg (by omega)]
      exact hs.free_prev i (by omega) h2
    · intro i h1 h2
      rw [hn, if_neg (by omega), if_neg (by omega)]
      exact hs.free_next i (by omega) h2
    · rw [hh, ht, ← hhd]
      refine dlseg_append s1 _ _ _ _ _ _ (some k) (some t) _ _ ?_ ?_
      · rw [htl] at hchain
        refine dlseg_relast s s1 none (some k) t _ _ _ _ hchain hne hs.nodup ?_ ?_ ?_
        · intro j hj
          have := hs.lt j hj
          rw [hp, hpv, if_neg (by omega), if_neg (by omega)]
          exact ⟨rfl, rfl⟩
        · intro j hj hjt
          have := hs.lt j hj
          rw [hn, if_neg hjt, if_neg (by omega)]
        · rw [hn, if_pos rfl]
      · simp only [Dlseg]
        refine ⟨trivial, ?_, ?_, ?_, trivial⟩
        · rw [hp, if_pos rfl]
        · rw [hpv, if_pos rfl]
        · rw [hn, if_neg (by omega), if_pos rfl]
    · intro j hj
      rcases List.mem_append.mp hj with h1 | h1
      · have := hs.lt j h1
        omega
      · simp at h1
        omega
    · refine List.Nodup.append hs.nodup (List.nodup_singleton k) ?_
      intro a h1 h2
      simp at h2
      have := hs.lt a h1
      omega
    · rw [hl, hs.len, wrap32_succ_small k hk]
    · have := hs.cnt
      simp at this ⊢
      exact this

theorem insState_push (s : link_list) (k : Nat) (idxs : List Nat) (vals : List Ptr) (p : Ptr)
    (hs : InsState s k idxs vals) (hk : k < MAX_LIST_NODES) :
    ∃ s1, list_push s p = (s1, 0) ∧ InsState s1 (k + 1) (k :: idxs) (p :: vals) := by
  have ha : s.available_nodes = some k := by rw [hs.avail, if_pos hk]
  have hchain := hs.chain
  cases idxs with
  | nil =>
    cases vals with
    | cons w ws => simp [Dlseg] at hchain
    | nil =>
      simp only [Dlseg] at hchain
      obtain ⟨s1, h0, hh, ht, hav, hat, hl, hsz, hidx, hp, hn, hpv⟩ :=
        list_push_first s p k ha hchain.1
      refine ⟨s1, h0, ?_⟩
      have hk0 : k = 0 := hs.cnt.symm
      refine ⟨hk, ?_, ?_, ?_, ?_, ?_, ?_, ?_, ?_, ?_⟩
      · rw [hav, hs.free_next k (le_refl k) hk]
      · rw [hat, hs.atail]
      · intro i h1 h2
        rw [hpv]
        exact hs.free_prev i (by omega) h2
      · intro i h1 h2
        rw [hn, if_neg (by omega)]
        exact hs.free_next i (by omega) h2
      · simp only [Dlseg]
        refine ⟨hh, ?_, ?_, ?_, ht.symm⟩
        · rw [hp, if_pos rfl]
        · rw [hpv]
          exact hs.free_prev k (le_refl k) hk
        · rw [hn, if_pos rfl]
      · simp
      · simp
      · rw [hl, hs.len, wrap32_succ_small k hk]
      · simp [hk0]
  | cons i0 is =>
    cases vals with
    | nil => simp [Dlseg] at hchain
    | cons w ws =>
      simp only [Dlseg] at hchain
      obtain ⟨hhd, hw, hpr, hrest⟩ := hchain
      obtain ⟨s1, h0, hh, ht, hav, hat, hl, hsz, hidx, hp, hn, hpv⟩ :=
        list_push_more s p k i0 ha hhd
      have hik : i0 < k := hs.lt i0 (by simp)
      refine ⟨s1, h0, ?_⟩
      refine ⟨hk, ?_, ?_, ?_, ?_, ?_, ?_, ?_, ?_, ?_⟩
      · rw [hav, hs.free_next k (le_refl k) hk]
      · rw [hat, hs.atail]
      · intro i h1 h2
        rw [hpv, if_neg (by omega)]
        exact hs.free_prev i (by omega) h2
      · intro i h1 h2
        rw [hn, if_neg (by omega)]
        exact hs.free_next i (by omega) h2
      · simp only [Dlseg]
        refine ⟨hh, ?_, ?_, ?_, ?_, ?_, ?_⟩
        · rw [hp, if_pos rfl]
        · rw [hpv, if_neg (by omega)]
          exact hs.free_prev k (le_refl k) hk
        · rw [hn, if_pos rfl]
        · rw [hp, if_neg (by omega)]
          exact hw
        · rw [hpv, if_pos rfl]
        · rw [hn, if_neg (by omega), ht]
          refine dlseg_frame s s1 _ _ _ _ _ _ ?_ hrest
          intro j hj
          have h1 : j < k := hs.lt j (List.mem_cons_of_mem _ hj)
          have h2 : j ≠ i0 := by
            intro h
            subst h
            exact (List.nodup_cons.mp hs.nodup).1 hj
          rw [hp, hn, hpv, if_neg (by omega), if_neg (by omega), if_neg h2]
          exact ⟨rfl, rfl, rfl⟩
      · intro j hj
        rcases List.mem_cons.mp hj with h1 | h1
        · omega
        · have := hs.lt j h1
          omega
      · refine List.nodup_cons.mpr ⟨?_, hs.nodup⟩
        intro h1
        have := hs.lt k h1
        omega
      · rw [hl, hs.len, wrap32_succ_small k hk]
      · have := hs.cnt
        simp at this ⊢
        exact this

/-! ## Running sequences of calls -/

theorem run_append (ops1 : List Op) :
    ∀ (ops2 : List Op) (s s1 s2 : link_list) (r1 r2 : List Ret),
      run s ops1 = some (s1, r1) → run s1 ops2 = some (s2, r2) →
      run s (ops1 ++ ops2) = some (s2, r1 ++ r2) := by
  induction ops1 with
  | nil =>
    intro ops2 s s1 s2 r1 r2 h1 h2
    simp only [run, Option.some.injEq, Prod.mk.injEq] at h1
    obtain ⟨rfl, rfl⟩ := h1
    simpa using h2
  | cons op ops ih =>
    intro ops2 s s1 s2 r1 r2 h1 h2
    simp only [run, List.cons_append] at h1 ⊢
    cases hst : step s op with
    | none => simp [hst] at h1
    | some x =>
      obtain ⟨l1, r⟩ := x
      simp only [hst] at h1 ⊢
      cases hr : run l1 ops with
      | none => simp [hr] at h1
      | some y =>
        obtain ⟨l2, rs⟩ := y
        simp only [hr, Option.some.injEq, Prod.mk.injEq] at h1
        obtain ⟨rfl, rfl⟩ := h1
        have h3 := ih ops2 l1 l2 s2 rs r2 hr h2
        simp only [List.append_eq] at h3 ⊢
        rw [h3]
        simp

theorem run_pops (n : Nat) :
    ∀ s : link_list,
      run s (List.replicate n Op.pop) = some ((pops n s).1, (pops n s).2.map Ret.ptr) := by
  induction n with
  | zero => intro s; rfl
  | succ n ih =>
    intro s
    simp only [List.replicate_succ, run, step, ih, pops, List.map_cons]

theorem run_appends (L : List Ptr) :
    ∀ (s : link_list) (k : Nat) (idxs : List Nat) (vals : List Ptr),
      InsState s k idxs vals → k + L.length ≤ MAX_LIST_NODES →
      ∃ s1, run s (L.map Op.append) = some (s1, List.replicate L.length (Ret.status 0)) ∧
        InsState s1 (k + L.length) (idxs ++ List.range' k L.length) (vals ++ L) := by
  induction L with
  | nil =>
    intro s k idxs vals hs _
    exact ⟨s, rfl, by simpa using hs⟩
  | cons p L ih =>
    intro s k idxs vals hs hk
    simp only [List.length_cons] at hk
    obtain ⟨s1, h0, hs1⟩ := insState_append s k idxs vals p hs (by omega)
    obtain ⟨s2, h2, hs2⟩ := ih s1 (k + 1) _ _ hs1 (by omega)
    refine ⟨s2, ?_, ?_⟩
    · simp only [List.map_cons, run, step, h0, Option.map_some', h2, List.length_cons,
        List.replicate_succ]
    · have e1 : k + (p :: L).length = k + 1 + L.length := by simp; omega
      rw [e1]
      simpa [List.range'_succ, List.append_assoc] using hs2

theorem run_pushes (L : List Ptr) :
    ∀ (s : link_list) (k : Nat) (idxs : List Nat) (vals : List Ptr),
      InsState s k idxs vals → k + L.length ≤ MAX_LIST_NODES →
      ∃ s1, run s (L.map Op.push) = some (s1, List.replicate L.length (Ret.status 0)) ∧
        InsState s1 (k + L.length) ((List.range' k L.length).reverse ++ idxs)
          (L.reverse ++ vals) := by
  induction L with
  | nil =>
    intro s k idxs vals hs _
    exact ⟨s, rfl, by simpa using hs⟩
  | cons p L ih =>
    intro s k idxs vals hs hk
    simp only [List.length_cons] at hk
    obtain ⟨s1, h0, hs1⟩ := insState_push s k idxs vals p hs (by omega)
    obtain ⟨s2, h2, hs2⟩ := ih s1 (k + 1) _ _ hs1 (by omega)
    refine ⟨s2, ?_, ?_⟩
    · simp only [List.map_cons, run, step, h0, h2, List.length_cons, List.replicate_succ]
    · have e1 : k + (p :: L).length = k + 1 + L.length := by simp; omega
      rw [e1]
      simpa [List.range'_succ, List.append_assoc] using hs2

theorem run_inserts (ops : List Op) :
    ∀ (s : link_list) (k : Nat) (idxs : List Nat) (vals : List Ptr),
      InsState s k idxs vals → (∀ op ∈ ops, op.isInsert = true) →
      k + ops.length ≤ MAX_LIST_NODES →
      ∃ s1 idxs1 vals1,
        run s ops = some (s1, List.replicate ops.length (Ret.status 0)) ∧
        InsState s1 (k + ops.length) idxs1 vals1 := by
  induction ops with
  | nil =>
    intro s k idxs vals hs _ _
    exact ⟨s, idxs, vals, rfl, by simpa using hs⟩
  | cons op ops ih =>
    intro s k idxs vals hs hins hk
    simp only [List.length_cons] at hk
    have hop := hins op (by simp)
    have hrest : ∀ o ∈ ops, o.isInsert = true := fun o ho => hins o (List.mem_cons_of_mem _ ho)
    have e1 : k + (op :: ops).length = k + 1 + ops.length := by simp; omega
    cases op with
    | append p =>
      obtain ⟨s1, h0, hs1⟩ := insState_append s k idxs vals p hs (by omega)
      obtain ⟨s2, i2, v2, h2, hs2⟩ := ih s1 (k + 1) _ _ hs1 hrest (by omega)
      refine ⟨s2, i2, v2, ?_, by rw [e1]; exact hs2⟩
      simp only [run, step, h0, Option.map_some', h2, List.length_cons, List.replicate_succ]
    | push p =>
      obtain ⟨s1, h0, hs1⟩ := insState_push s k idxs vals p hs (by omega)
      obtain ⟨s2, i2, v2, h2, hs2⟩ := ih s1 (k + 1) _ _ hs1 hrest (by omega)
      refine ⟨s2, i2, v2, ?_, by rw [e1]; exact hs2⟩
      simp only [run, step, h0, h2, List.length_cons, List.replicate_succ]
    | pop => simp [Op.isInsert] at hop
    | pop_tail => simp [Op.isInsert] at hop
    | remove t => simp [Op.isInsert] at hop
    | peek => simp [Op.isInsert] at hop

/-! ## Popping along a forward chain -/

theorem dlseg_seg (s : link_list) :
    ∀ (idxs : List Nat) (vals : List Ptr) (h p e t : Option Nat),
      Dlseg s h p e t idxs vals → Seg s h e idxs vals
  | [], [], _, _, _, _, hd => by
    simp only [Dlseg] at hd
    simpa [Seg] using hd.1
  | [], _ :: _, _, _, _, _, hd => by simp [Dlseg] at hd
  | _ :: _, [], _, _, _, _, hd => by simp [Dlseg] at hd
  | i :: is, v :: vs, _, _, _, _, hd => by
    simp only [Dlseg] at hd
    simp only [Seg]
    exact ⟨hd.1, hd.2.1, dlseg_seg s is vs _ _ _ _ hd.2.2.2⟩

theorem seg_length (s : link_list) :
    ∀ (idxs : List Nat) (vals : List Ptr) (h e : Option Nat),
      Seg s h e idxs vals → idxs.length = vals.length
  | [], [], _, _, _ => rfl
  | [], _ :: _, _, _, hd => by simp [Seg] at hd
  | _ :: _, [], _, _, hd => by simp [Seg] at hd
  | i :: is, v :: vs, _, _, hd => by
    simp only [Seg] at hd
    simp [seg_length s is vs _ _ hd.2.2]

theorem seg_frame (s s1 : link_list) :
    ∀ (idxs : List Nat) (vals : List Ptr) (h e : Option Nat),
      (∀ j ∈ idxs, s1.payload j = s.payload j ∧ s1.next_node j = s.next_node j) →
      Seg s h e idxs vals → Seg s1 h e idxs vals
  | [], [], _, _, _, hd => by simpa [Seg] using hd
  | [], _ :: _, _, _, _, hd => by simp [Seg] at hd
  | _ :: _, [], _, _, _, hd => by simp [Seg] at hd
  | i :: is, v :: vs, _, _, hf, hd => by
    simp only [Seg] at hd ⊢
    obtain ⟨h1, h2⟩ := hf i (by simp)
    refine ⟨hd.1, by rw [h1]; exact hd.2.1, ?_⟩
    rw [h2]
    exact seg_frame s s1 is vs _ _ (fun j hj => hf j (List.mem_cons_of_mem _ hj)) hd.2.2

theorem seg_relast (s s1 : link_list) :
    ∀ (idxs : List Nat) (vals : List Ptr) (h e : Option Nat),
      (∀ j ∈ idxs, s1.payload j = s.payload j) →
      (∀ j ∈ idxs.dropLast, s1.next_node j = s.next_node j) →
      Seg s h e idxs vals → ∃ e1, Seg s1 h e1 idxs vals
  | [], [], _, e, _, _, hd => ⟨e, by simpa [Seg] using hd⟩
  | [], _ :: _, _, _, _, _, hd => by simp [Seg] at hd
  | _ :: _, [], _, _, _, _, hd => by simp [Seg] at hd
  | [i], v :: vs, _, _, hp, _, hd => by
    cases vs with
    | nil =>
      simp only [Seg] at hd
      refine ⟨s1.next_node i, ?_⟩
      simp only [Seg]
      exact ⟨hd.1, by rw [hp i (by simp)]; exact hd.2.1, trivial⟩
    | cons w ws => simp [Seg] at hd
  | i :: i2 :: is, v :: vs, _, _, hp, hn, hd => by
    simp only [Seg] at hd
    obtain ⟨e1, h1⟩ := seg_relast s s1 (i2 :: is) vs _ _
      (fun j hj => hp j (List.mem_cons_of_mem _ hj))
      (fun j hj => hn j (by simp only [List.dropLast_cons₂]; exact List.mem_cons_of_mem _ hj))
      hd.2.2
    refine ⟨e1, ?_⟩
    simp only [Seg]
    refine ⟨hd.1, by rw [hp i (by simp)]; exact hd.2.1, ?_⟩
    rw [hn i (by simp)]
    exact h1

theorem pops_vals :
    ∀ (idxs : List Nat) (vals : List Ptr) (s : link_list) (e : Option Nat),
      Seg s s.head_node e idxs vals → idxs.Nodup →
      (∀ t, s.available_tail = some t → t ∉ idxs.tail.dropLast) →
      (pops idxs.length s).2 = vals ∧
      ((idxs.length : Int) ≤ s.length → s.length < 2147483648 →
        (pops idxs.length s).1.length = s.length - (idxs.length : Int)) ∧
      (pops idxs.length s).1.available_nodes = s.available_nodes
  | [], [], s, _, _, _, _ => by simp [pops]
  | [], _ :: _, _, _, hd, _, _ => by simp [Seg] at hd
  | _ :: _, [], _, _, hd, _, _ => by simp [Seg] at hd
  | i :: is, v :: vs, s, e, hd, hnd, hat => by
    simp only [Seg] at hd
    obtain ⟨hh, hv, hrest⟩ := hd
    obtain ⟨hret, hhead, -, hav, hatl, hlen, hp, hn, -⟩ := list_pop_some s i hh
    have hi : i ∉ is := (List.nodup_cons.mp hnd).1
    obtain ⟨e1, hseg⟩ := seg_relast s (list_pop s).1 is vs _ _
      (fun j hj => by
        rw [hp, if_neg]
        intro h
        exact hi (h ▸ hj))
      (fun j hj => by
        have hj2 : j ∈ is := List.mem_of_mem_dropLast hj
        rw [hn, if_neg, if_neg]
        · intro h
          exact hi (h ▸ hj2)
        · intro h
          exact hat j h (by simpa using hj))
      hrest
    rw [← hhead] at hseg
    obtain ⟨r1, r2, r3⟩ := pops_vals is vs (list_pop s).1 e1 hseg (List.nodup_cons.mp hnd).2
      (fun t ht hm => by
        rw [hatl] at ht
        have : t = i := (Option.some.inj ht).symm
        subst this
        exact hi (List.mem_of_mem_tail (List.mem_of_mem_dropLast hm)))
    simp only [List.length_cons, pops]
    refine ⟨by rw [hret, hv, r1], ?_, by rw [r3, hav]⟩
    intro hl1 hl2
    push_cast at hl1
    have hw : wrap32 (s.length - 1) = s.length - 1 := wrap32_of_range _ (by omega) (by omega)
    rw [r2 (by rw [hlen, hw]; omega) (by rw [hlen, hw]; omega), hlen, hw]
    push_cast
    ring

theorem pops_head :
    ∀ (idxs : List Nat) (vals : List Ptr) (s : link_list) (e : Option Nat),
      Seg s s.head_node e idxs vals → idxs.Nodup →
      (∀ t, s.available_tail = some t → t ∉ idxs.tail) →
      (pops idxs.length s).1.head_node = e
  | [], [], s, _, hd, _, _ => by simpa [pops, Seg] using hd
  | [], _ :: _, _, _, hd, _, _ => by simp [Seg] at hd
  | _ :: _, [], _, _, hd, _, _ => by simp [Seg] at hd
  | i :: is, v :: vs, s, e, hd, hnd, hat => by
    simp only [Seg] at hd
    obtain ⟨hh, hv, hrest⟩ := hd
    obtain ⟨hret, hhead, -, hav, hatl, hlen, hp, hn, -⟩ := list_pop_some s i hh
    have hi : i ∉ is := (List.nodup_cons.mp hnd).1
    have hseg : Seg (list_pop s).1 (s.next_node i) e is vs :=
      seg_frame s (list_pop s).1 is vs _ _
        (fun j hj => by
          have hji : j ≠ i := fun h => hi (h ▸ hj)
          rw [hp, hn, if_neg hji, if_neg, if_neg hji]
          · exact ⟨rfl, rfl⟩
          · intro h
            exact hat j h (by simpa using hj))
        hrest
    rw [← hhead] at hseg
    have := pops_head is vs (list_pop s).1 e hseg (List.nodup_cons.mp hnd).2
      (fun t ht hm => by
        rw [hatl] at ht
        have : t = i := (Option.some.inj ht).symm
        subst this
        exact hi (List.mem_of_mem_tail hm))
    simpa [pops] using this

theorem mem_dropLast_range' :
    ∀ (n a j : Nat), j ∈ (List.range' a n).dropLast → j + 1 < a + n
  | 0, _, _, h => by simp at h
  | 1, _, _, h => by simp [List.range'] at h
  | n + 2, a, j, h => by
    rw [List.range'_succ, List.range'_succ, List.dropLast_cons₂, ← List.range'_succ] at h
    rcases List.mem_cons.mp h with h1 | h1
    · omega
    · have := mem_dropLast_range' (n + 1) (a + 1) j h1
      omega

theorem mem_tail_dropLast_range' (n a j : Nat)
    (h : j ∈ (List.range' a n).tail.dropLast) : j + 1 < a + n := by
  cases n with
  | zero => simp at h
  | succ n =>
    rw [List.range'_succ, List.tail_cons] at h
    have := mem_dropLast_range' n (a + 1) j h
    omega

theorem mem_tail_reverse_range' (n a j : Nat)
    (h : j ∈ (List.range' a n).reverse.tail) : j + 1 < a + n := by
  cases n with
  | zero => simp at h
  | succ n =>
    rw [List.range'_concat, List.reverse_append] at h
    simp at h
    omega

/-! ## Removing a node from the middle of a chain -/

theorem dlseg_split (s : link_list) :
    ∀ (xs : List Nat) (vs : List Ptr) (ys : List Nat) (ws : List Ptr) (h p e t : Option Nat),
      xs.length = vs.length → Dlseg s h p e t (xs ++ ys) (vs ++ ws) →
      ∃ m q, Dlseg s h p m q xs vs ∧ Dlseg s m q e t ys ws
  | [], [], _, _, h, p, _, _, _, hd => ⟨h, p, by simp [Dlseg], by simpa using hd⟩
  | [], _ :: _, _, _, _, _, _, _, hl, _ => by simp at hl
  | _ :: _, [], _, _, _, _, _, _, hl, _ => by simp at hl
  | i :: is, v :: vs, ys, ws, _, _, _, _, hl, hd => by
    simp only [List.cons_append, Dlseg] at hd
    obtain ⟨m, q, h1, h2⟩ := dlseg_split s is vs ys ws _ _ _ _ (by simpa using hl) hd.2.2.2
    exact ⟨m, q, by simp only [Dlseg]; exact ⟨hd.1, hd.2.1, hd.2.2.1, h1⟩, h2⟩

theorem seg_append (s : link_list) :
    ∀ (xs : List Nat) (vs : List Ptr) (ys : List Nat) (ws : List Ptr) (h m e : Option Nat),
      Seg s h m xs vs → Seg s m e ys ws → Seg s h e (xs ++ ys) (vs ++ ws)
  | [], [], _, _, _, _, _, h1, h2 => by
    simp only [Seg] at h1
    subst h1
    simpa using h2
  | [], _ :: _, _, _, _, _, _, h1, _ => by simp [Seg] at h1
  | _ :: _, [], _, _, _, _, _, h1, _ => by simp [Seg] at h1
  | i :: is, v :: vs, ys, ws, _, _, _, h1, h2 => by
    simp only [Seg, List.cons_append] at h1 ⊢
    exact ⟨h1.1, h1.2.1, seg_append s is vs ys ws _ _ _ h1.2.2 h2⟩

theorem scan_skip (s : link_list) (x : Ptr) (n : Nat) :
    ∀ (idxs : List Nat) (vals : List Ptr) (h e : Option Nat),
      Seg s h e idxs vals → x ∉ vals →
      remove_scan s x (idxs.length + n) h = remove_scan s x n e
  | [], [], _, _, hd, _ => by
    simp only [Seg] at hd
    simp [hd]
  | [], _ :: _, _, _, hd, _ => by simp [Seg] at hd
  | _ :: _, [], _, _, hd, _ => by simp [Seg] at hd
  | i :: is, v :: vs, _, _, hd, hx => by
    simp only [Seg] at hd
    obtain ⟨rfl, hv, hrest⟩ := hd
    have hne : ¬ s.payload i = x := by
      rw [hv]
      intro h
      exact hx (by simp [h])
    have e1 : (i :: is).length + n = (is.length + n) + 1 := by simp; omega
    rw [e1]
    simp only [remove_scan, if_neg hne]
    exact scan_skip s x n is vs _ _ hrest (fun h => hx (List.mem_cons_of_mem _ h))

theorem dlseg_head_some (s : link_list) (idxs : List Nat) (vals : List Ptr)
    (h p e t : Option Nat) (hd : Dlseg s h p e t idxs vals) (hne : idxs ≠ []) :
    ∃ i, h = some i := by
  cases idxs with
  | nil => exact absurd rfl hne
  | cons i is =>
    cases vals with
    | nil => simp [Dlseg] at hd
    | cons v vs =>
      simp only [Dlseg] at hd
      exact ⟨i, hd.1⟩

theorem dlseg_nil (s : link_list) (vals : List Ptr) (h p e t : Option Nat)
    (hd : Dlseg s h p e t [] vals) : vals = [] ∧ h = e ∧ p = t := by
  cases vals with
  | nil => simpa [Dlseg] using hd
  | cons v vs => simp [Dlseg] at hd

theorem remove_chain (s : link_list) (x : Ptr) (pre post : List Nat) (preV postV : List Ptr)
    (tn : Nat)
    (hchain : Dlseg s s.head_node none none s.tail_node (pre ++ tn :: post)
      (preV ++ x :: postV))
    (hpre : pre.length = preV.length) (hx : x ∉ preV)
    (hnd : (pre ++ tn :: post).Nodup)
    (hlen : s.length = ((pre ++ tn :: post).length : Int))
    (hsm : s.length < 2147483648)
    (hat : ∀ t, s.available_tail = some t → t ∉ (pre ++ post).dropLast) :
    (list_remove s x).2 = x ∧ (list_remove s x).1.length = s.length - 1 ∧
    (list_remove s x).1.available_tail = some tn ∧
    (list_remove s x).1.available_nodes = s.available_nodes ∧
    ∃ e1, Seg (list_remove s x).1 (list_remove s x).1.head_node e1 (pre ++ post)
      (preV ++ postV) := by
  obtain ⟨m, q, hA, hB⟩ := dlseg_split s pre preV (tn :: post) (x :: postV) _ _ _ _ hpre hchain
  simp only [Dlseg] at hB
  obtain ⟨hm, hpay, hprev, hC⟩ := hB
  subst hm
  obtain ⟨h0, hh0⟩ := dlseg_head_some s _ _ _ _ _ _ hchain (by simp)
  have hndA := List.nodup_append.mp hnd
  have hndpre : pre.Nodup := hndA.1
  have htn_post : tn ∉ post := (List.nodup_cons.mp hndA.2.1).1
  have htn_pre : tn ∉ pre := fun h => hndA.2.2 h (by simp)
  have hdisj : ∀ j, j ∈ pre → j ∉ post := fun j h1 h2 => hndA.2.2 h1 (List.mem_cons_of_mem _ h2)
  have hq : ∀ j, s.prev_node tn = some j → j ∈ pre := by
    intro j hj
    cases pre with
    | nil =>
      have := (dlseg_nil s _ _ _ _ _ hA).2.2
      rw [hprev, ← this] at hj
      simp at hj
    | cons i0 is =>
      obtain ⟨ql, h1, h2⟩ := dlseg_last_some s _ _ _ _ _ _ hA (by simp)
      rw [hprev, h1] at hj
      exact (Option.some.inj hj) ▸ h2
  have hscan : remove_scan s x s.length.toNat (some h0) = some tn := by
    have e1 : s.length.toNat = pre.length + (post.length + 1) := by
      rw [hlen]
      simp only [List.length_append, List.length_cons]
      omega
    rw [← hh0, e1, scan_skip s x _ pre preV _ _ (dlseg_seg s _ _ _ _ _ _ hA) hx]
    simp [remove_scan, hpay]
  obtain ⟨r1, r2, r3, r4, r5, r6, r7, r8, r9⟩ := list_remove_found s x h0 tn hh0 hscan
  have hpos : 1 ≤ s.length := by
    rw [hlen]
    simp only [List.length_append, List.length_cons]
    push_cast
    omega
  refine ⟨by rw [r1, hpay], by rw [r6, wrap32_of_range _ (by omega) (by omega)], r5, r4, ?_⟩
  have hs2 : Seg
      { s with
        next_node := fun j => if s.prev_node tn = some j then s.next_node tn else s.next_node j }
      (list_remove s x).1.head_node none (pre ++ post) (preV ++ postV) := by
    refine seg_append _ pre preV post postV _ (s.next_node tn) _ ?_ ?_
    · cases pre with
      | nil =>
        obtain ⟨hv, hhd, hqn⟩ := dlseg_nil s _ _ _ _ _ hA
        subst hv
        rw [r2, hprev, ← hqn, if_pos rfl]
        simp [Seg]
      | cons i0 is =>
        obtain ⟨ql, h1, h2⟩ := dlseg_last_some s _ _ _ _ _ _ hA (by simp)
        rw [r2, hprev, h1, if_neg (by simp)]
        rw [h1] at hA
        refine dlseg_seg _ _ _ _ none _ (some ql) ?_
        refine dlseg_relast s _ (some tn) (s.next_node tn) ql _ _ _ _ hA (by simp) hndpre
          (fun j _ => ⟨rfl, rfl⟩) ?_ ?_
        · intro j _ hj
          show (if some ql = some j then s.next_node tn else s.next_node j) = _
          rw [if_neg]
          intro h
          exact hj (Option.some.inj h).symm
        · show (if some ql = some ql then s.next_node tn else s.next_node ql) = _
          rw [if_pos rfl]
    · refine seg_frame s _ post postV _ _ ?_ (dlseg_seg s _ _ _ _ _ _ hC)
      intro j hj
      refine ⟨rfl, ?_⟩
      show (if s.prev_node tn = some j then s.next_node tn else s.next_node j) = _
      rw [if_neg]
      intro h
      exact hdisj j (hq j h) hj
  refine seg_relast _ (list_remove s x).1 (pre ++ post) (preV ++ postV) _ _ ?_ ?_ hs2
  · intro j hj
    rw [r7, if_neg]
    intro h
    subst h
    rcases List.mem_append.mp hj with h1 | h1
    · exact htn_pre h1
    · exact htn_post h1
  · intro j hj
    have hj2 := List.mem_of_mem_dropLast hj
    have hjtn : j ≠ tn := by
      intro h
      subst h
      rcases List.mem_append.mp hj2 with h1 | h1
      · exact htn_pre h1
      · exact htn_post h1
    rw [r8, if_neg (fun h => hat j h hj), if_neg hjtn]

theorem scan_none_of_not_stored (s : link_list) (x : Ptr) :
    ∀ (n : Nat) (h : Option Nat), x ∉ chain_payloads s n h → remove_scan s x n h = none
  | 0, _, _ => rfl
  | _ + 1, none, _ => rfl
  | n + 1, some c, hx => by
    simp only [chain_payloads, List.mem_cons, not_or] at hx
    have hne : ¬ s.payload c = x := fun h => hx.1 h.symm
    simp only [remove_scan, if_neg hne]
    exact scan_none_of_not_stored s x n _ hx.2

/-! ## Updating a chain in place -/

theorem list_pop_tail_none (s : link_list) (h : s.tail_node = none) :
    list_pop_tail s = (s, 0) := by
  simp [list_pop_tail, h]

theorem list_pop_tail_some (s : link_list) (i : Nat) (h : s.tail_node = some i) :
    (list_pop_tail s).2 = s.payload i ∧
    (list_pop_tail s).1.head_node = (if s.prev_node i = none then none else s.head_node) ∧
    (list_pop_tail s).1.tail_node = s.prev_node i ∧
    (list_pop_tail s).1.available_nodes = s.available_nodes ∧
    (list_pop_tail s).1.available_tail = some i ∧
    (list_pop_tail s).1.length = wrap32 (s.length - 1) ∧
    (∀ j, (list_pop_tail s).1.payload j = if j = i then 0 else s.payload j) ∧
    (∀ j, (list_pop_tail s).1.next_node j =
      if s.available_tail = some j then some i else if j = i then none
      else if s.prev_node i = some j then none else s.next_node j) ∧
    (∀ j, (list_pop_tail s).1.prev_node j = if j = i then none else s.prev_node j) := by
  simp only [list_pop_tail, h, enq_new_node]
  rcases hn : s.prev_node i with _ | pv <;> rcases ht : s.available_tail with _ | t <;>
    simp [hn, ht, setAt_apply] <;>
    (repeat' apply And.intro) <;> (try intro j) <;>
    split_ifs <;> (try subst_vars) <;> (try rfl) <;> (try contradiction) <;> (try simp_all)

theorem enq_new_node_available_nodes (s : link_list) (n : Nat) :
    (enq_new_node s n).available_nodes = s.available_nodes := by
  simp only [enq_new_node]
  cases s.available_tail <;> rfl

theorem deq_new_node_available_tail (s : link_list) :
    (deq_new_node s).1.available_tail = s.available_tail := by
  simp only [deq_new_node]
  cases s.available_nodes <;> rfl

theorem list_pop_available_nodes (s : link_list) :
    (list_pop s).1.available_nodes = s.available_nodes := by
  cases h : s.head_node with
  | none => rw [list_pop_none s h]
  | some i => exact (list_pop_some s i h).2.2.2.1

theorem list_pop_tail_available_nodes (s : link_list) :
    (list_pop_tail s).1.available_nodes = s.available_nodes := by
  cases h : s.tail_node with
  | none => rw [list_pop_tail_none s h]
  | some i => exact (list_pop_tail_some s i h).2.2.2.1

theorem list_remove_cases (s : link_list) (x : Ptr) :
    list_remove s x = (s, 0) ∨
    ∃ h tn, s.head_node = some h ∧ remove_scan s x s.length.toNat (some h) = some tn := by
  cases hh : s.head_node with
  | none => exact Or.inl (list_remove_empty s x hh)
  | some h =>
    cases hs : remove_scan s x s.length.toNat (some h) with
    | none => exact Or.inl (list_remove_missing s x (by rw [hh]; exact hs))
    | some tn => exact Or.inr ⟨h, tn, rfl, hs⟩

theorem list_remove_available_nodes (s : link_list) (x : Ptr) :
    (list_remove s x).1.available_nodes = s.available_nodes := by
  rcases list_remove_cases s x with h | ⟨h, tn, hh, hs⟩
  · rw [h]
  · exact (list_remove_found s x h tn hh hs).2.2.2.1

theorem dlseg_first (s : link_list) (i : Nat) (is : List Nat) (vals : List Ptr)
    (h p e t : Option Nat) (hd : Dlseg s h p e t (i :: is) vals) :
    h = some i ∧ s.prev_node i = p := by
  cases vals with
  | nil => simp [Dlseg] at hd
  | cons v vs =>
    simp only [Dlseg] at hd
    exact ⟨hd.1, hd.2.2.1⟩

theorem dlseg_last (s : link_list) :
    ∀ (idxs : List Nat) (vals : List Ptr) (h p e t : Option Nat) (l : Nat),
      Dlseg s h p e t idxs vals → idxs.getLast? = some l → t = some l ∧ s.next_node l = e
  | [], _, _, _, _, _, _, _, hl => by simp at hl
  | _ :: _, [], _, _, _, _, _, hd, _ => by simp [Dlseg] at hd
  | [i], v :: vs, _, _, _, _, l, hd, hl => by
    cases vs with
    | nil =>
      simp only [Dlseg] at hd
      simp only [List.getLast?_singleton, Option.some.injEq] at hl
      subst hl
      exact ⟨hd.2.2.2.2.symm, hd.2.2.2.1⟩
    | cons w ws => simp [Dlseg] at hd
  | i :: i2 :: is, v :: vs, _, _, _, _, l, hd, hl => by
    simp only [Dlseg] at hd
    rw [List.getLast?_cons_cons] at hl
    exact dlseg_last s (i2 :: is) vs _ _ _ _ l hd.2.2.2 hl

theorem dlseg_update (s s1 : link_list) :
    ∀ (idxs : List Nat) (vals : List Ptr) (h p e t : Option Nat) (i0 l : Nat),
      Dlseg s h p e t idxs vals →
      (∀ j ∈ idxs, s1.payload j = s.payload j) →
      (∀ j ∈ idxs.tail, s1.prev_node j = s.prev_node j) →
      (∀ j ∈ idxs.dropLast, s1.next_node j = s.next_node j) →
      idxs.head? = some i0 → idxs.getLast? = some l →
      Dlseg s1 h (s1.prev_node i0) (s1.next_node l) t idxs vals
  | [], _, _, _, _, _, _, _, _, _, _, _, hh, _ => by simp at hh
  | _ :: _, [], _, _, _, _, _, _, hd, _, _, _, _, _ => by simp [Dlseg] at hd
  | [i], v :: vs, _, _, _, _, i0, l, hd, hp, _, _, hh, hl => by
    cases vs with
    | nil =>
      simp only [Dlseg] at hd ⊢
      simp only [List.head?_cons, Option.some.injEq] at hh
      simp only [List.getLast?_singleton, Option.some.injEq] at hl
      subst hh
      subst hl
      exact ⟨hd.1, by rw [hp i (by simp)]; exact hd.2.1, rfl, rfl, hd.2.2.2.2⟩
    | cons w ws => simp [Dlseg] at hd
  | i :: i2 :: is, v :: vs, _, _, _, _, i0, l, hd, hp, hpv, hn, hh, hl => by
    simp only [Dlseg] at hd ⊢
    simp only [List.head?_cons, Option.some.injEq] at hh
    subst hh
    rw [List.getLast?_cons_cons] at hl
    have hrec := dlseg_update s s1 (i2 :: is) vs _ _ _ _ i2 l hd.2.2.2
      (fun j hj => hp j (List.mem_cons_of_mem _ hj))
      (fun j hj => hpv j (by
        simp only [List.tail_cons] at hj ⊢
        exact List.mem_cons_of_mem _ hj))
      (fun j hj => hn j (by
        simp only [List.dropLast_cons₂]
        exact List.mem_cons_of_mem _ hj))
      rfl hl
    have hp2 : s1.prev_node i2 = some i := by
      rw [hpv i2 (by simp)]
      exact (dlseg_first s i2 is vs _ _ _ _ hd.2.2.2).2
    rw [hp2] at hrec
    refine ⟨hd.1, by rw [hp i (by simp)]; exact hd.2.1, rfl, ?_⟩
    rw [hn i (by simp)]
    exact hrec

theorem seg_update (s s1 : link_list) :
    ∀ (idxs : List Nat) (vals : List Ptr) (h e : Option Nat) (l : Nat),
      Seg s h e idxs vals →
      (∀ j ∈ idxs, s1.payload j = s.payload j) →
      (∀ j ∈ idxs.dropLast, s1.next_node j = s.next_node j) →
      idxs.getLast? = some l →
      Seg s1 h (s1.next_node l) idxs vals
  | [], _, _, _, _, _, _, _, hl => by simp at hl
  | _ :: _, [], _, _, _, hd, _, _, _ => by simp [Seg] at hd
  | [i], v :: vs, _, _, l, hd, hp, _, hl => by
    cases vs with
    | nil =>
      simp only [Seg] at hd ⊢
      simp only [List.getLast?_singleton, Option.some.injEq] at hl
      subst hl
      exact ⟨hd.1, by rw [hp i (by simp)]; exact hd.2.1, rfl⟩
    | cons w ws => simp [Seg] at hd
  | i :: i2 :: is, v :: vs, _, _, l, hd, hp, hn, hl => by
    simp only [Seg] at hd ⊢
    rw [List.getLast?_cons_cons] at hl
    refine ⟨hd.1, by rw [hp i (by simp)]; exact hd.2.1, ?_⟩
    rw [hn i (by simp)]
    exact seg_update s s1 (i2 :: is) vs _ _ l hd.2.2
      (fun j hj => hp j (List.mem_cons_of_mem _ hj))
      (fun j hj => hn j (by
        simp only [List.dropLast_cons₂]
        exact List.mem_cons_of_mem _ hj))
      hl
/-! ## The active chain under each removal -/

theorem pop_active (s : link_list) (i : Nat) (is : List Nat) (v : Ptr) (vs : List Ptr)
    (e : Option Nat)
    (hd : Dlseg s s.head_node none e s.tail_node (i :: is) (v :: vs))
    (hnd : (i :: is).Nodup) (he : is = [] → e = none)
    (hat : ∀ t, s.available_tail = some t → t ∉ is.dropLast) :
    (list_pop s).2 = v ∧
    ∃ e1, Dlseg (list_pop s).1 (list_pop s).1.head_node none e1 (list_pop s).1.tail_node is vs ∧
      ((∀ t, s.available_tail = some t → t ∉ is) → e1 = e) := by
  simp only [Dlseg] at hd
  obtain ⟨hh, hv, -, hrest⟩ := hd
  obtain ⟨r1, r2, r3, -, -, -, r7, r8, r9⟩ := list_pop_some s i hh
  have hi : i ∉ is := (List.nodup_cons.mp hnd).1
  refine ⟨by rw [r1, hv], ?_⟩
  cases is with
  | nil =>
    obtain ⟨hvs, hne, -⟩ := dlseg_nil s _ _ _ _ _ hrest
    subst hvs
    have he0 := he rfl
    subst he0
    refine ⟨none, ?_, fun _ => rfl⟩
    simp only [Dlseg]
    exact ⟨by rw [r2, hne], by rw [r3, if_pos hne]⟩
  | cons i2 is2 =>
    obtain ⟨hn1, hp1⟩ := dlseg_first s i2 is2 vs _ _ _ _ hrest
    obtain ⟨l, hl⟩ : ∃ l, (i2 :: is2).getLast? = some l :=
      ⟨_, List.getLast?_eq_getLast _ (by simp)⟩
    have hlm : l ∈ i2 :: is2 := List.mem_of_getLast?_eq_some hl
    have hnd2 := (List.nodup_cons.mp hnd).2
    have hi2 : i2 ∉ is2 := (List.nodup_cons.mp hnd2).1
    have hup := dlseg_update s (list_pop s).1 (i2 :: is2) vs _ _ _ _ i2 l hrest
      (fun j hj => by
        have hji : j ≠ i := fun h => hi (h ▸ hj)
        rw [r7, if_neg hji])
      (fun j hj => by
        simp only [List.tail_cons] at hj
        have hji : j ≠ i := fun h => hi (h ▸ List.mem_cons_of_mem _ hj)
        have hj2 : ¬ some i2 = some j := fun h => hi2 ((Option.some.inj h) ▸ hj)
        rw [r9, if_neg hji, hn1, if_neg hj2])
      (fun j hj => by
        have hji : j ≠ i := fun h => hi (h ▸ List.mem_of_mem_dropLast hj)
        have hjt : ¬ s.available_tail = some j := fun h => hat j h hj
        rw [r8, if_neg hjt, if_neg hji])
      rfl hl
    have hi2i : i2 ≠ i := fun h => hi (h ▸ List.mem_cons_self _ _)
    have hli : l ≠ i := fun h => hi (h ▸ hlm)
    have hp2 : (list_pop s).1.prev_node i2 = none := by
      rw [r9, if_neg hi2i, hn1, if_pos rfl]
    rw [hp2] at hup
    refine ⟨(list_pop s).1.next_node l, ?_, ?_⟩
    · rw [r2, r3, if_neg (by rw [hn1]; simp)]
      exact hup
    · intro hno
      have hlt : ¬ s.available_tail = some l := fun h => hno l h hlm
      rw [r8, if_neg hlt, if_neg hli]
      exact (dlseg_last s _ _ _ _ _ _ l hrest hl).2
theorem last_not_mem_dropLast {l : List Nat} {a : Nat} (hnd : l.Nodup)
    (hl : l.getLast? = some a) : a ∉ l.dropLast := by
  obtain ⟨ys, rfl⟩ := List.getLast?_eq_some_iff.mp hl
  rw [List.dropLast_concat]
  intro h
  exact (List.nodup_append.mp hnd).2.2 h (by simp)

theorem pop_tail_active (s : link_list) (is : List Nat) (i : Nat) (vs : List Ptr) (v : Ptr)
    (e : Option Nat)
    (hd : Dlseg s s.head_node none e s.tail_node (is ++ [i]) (vs ++ [v]))
    (hlen : is.length = vs.length) (hnd : (is ++ [i]).Nodup)
    (hat : ∀ t, s.available_tail = some t → t ∉ is) :
    (list_pop_tail s).2 = v ∧
    Dlseg (list_pop_tail s).1 (list_pop_tail s).1.head_node none none
      (list_pop_tail s).1.tail_node is vs := by
  obtain ⟨m, q, hA, hB⟩ := dlseg_split s is vs [i] [v] _ _ _ _ hlen hd
  simp only [Dlseg] at hB
  obtain ⟨hm, hv, hpv, -, htl⟩ := hB
  obtain ⟨r1, r2, r3, -, -, -, r7, r8, r9⟩ := list_pop_tail_some s i htl.symm
  have hndA := List.nodup_append.mp hnd
  have hi : i ∉ is := fun h => hndA.2.2 h (by simp)
  refine ⟨by rw [r1, hv], ?_⟩
  cases is with
  | nil =>
    obtain ⟨hvs, -, hq⟩ := dlseg_nil s _ _ _ _ _ hA
    subst hvs
    simp only [Dlseg]
    rw [r2, r3, hpv, ← hq]
    simp
  | cons i0 is2 =>
    obtain ⟨l, hl⟩ : ∃ l, (i0 :: is2).getLast? = some l :=
      ⟨_, List.getLast?_eq_getLast _ (by simp)⟩
    have hlm : l ∈ i0 :: is2 := List.mem_of_getLast?_eq_some hl
    obtain ⟨hq, -⟩ := dlseg_last s _ _ _ _ _ _ l hA hl
    have hpl : s.prev_node i = some l := by rw [hpv, hq]
    have hup := dlseg_update s (list_pop_tail s).1 (i0 :: is2) vs _ _ _ _ i0 l hA
      (fun j hj => by
        have hji : j ≠ i := fun h => hi (h ▸ hj)
        rw [r7, if_neg hji])
      (fun j hj => by
        have hji : j ≠ i := fun h => hi (h ▸ List.mem_of_mem_tail hj)
        rw [r9, if_neg hji])
      (fun j hj => by
        have hj2 := List.mem_of_mem_dropLast hj
        have hji : j ≠ i := fun h => hi (h ▸ hj2)
        have hjt : ¬ s.available_tail = some j := fun h => hat j h hj2
        have hjl : ¬ s.prev_node i = some j := by
          rw [hpl]
          intro h
          exact last_not_mem_dropLast hndA.1 hl ((Option.some.inj h) ▸ hj)
        rw [r8, if_neg hjt, if_neg hji, if_neg hjl])
      rfl hl
    have hi0 : i0 ≠ i := fun h => hi (h ▸ List.mem_cons_self _ _)
    have hli : l ≠ i := fun h => hi (h ▸ hlm)
    have hlt : ¬ s.available_tail = some l := fun h => hat l h hlm
    have hp0 : (list_pop_tail s).1.prev_node i0 = none := by
      rw [r9, if_neg hi0]
      exact (dlseg_first s _ _ _ _ _ _ _ hA).2
    have hnl : (list_pop_tail s).1.next_node l = none := by
      rw [r8, if_neg hlt, if_neg hli, if_pos hpl]
    rw [hp0, hnl, hq] at hup
    rw [r2, r3, hpl, if_neg (by simp)]
    exact hup
theorem remove_scan_finds (s : link_list) (x : Ptr) (pre post : List Nat)
    (preV postV : List Ptr) (tn : Nat) (e : Option Nat)
    (hchain : Dlseg s s.head_node none e s.tail_node (pre ++ tn :: post)
      (preV ++ x :: postV))
    (hpre : pre.length = preV.length) (hx : x ∉ preV)
    (hlen : s.length = ((pre ++ tn :: post).length : Int)) :
    ∃ h0, s.head_node = some h0 ∧ remove_scan s x s.length.toNat (some h0) = some tn := by
  obtain ⟨m, q, hA, hB⟩ := dlseg_split s pre preV (tn :: post) (x :: postV) _ _ _ _ hpre hchain
  simp only [Dlseg] at hB
  obtain ⟨hm, hpay, -, -⟩ := hB
  subst hm
  obtain ⟨h0, hh0⟩ := dlseg_head_some s _ _ _ _ _ _ hchain (by simp)
  refine ⟨h0, hh0, ?_⟩
  have e1 : s.length.toNat = pre.length + (post.length + 1) := by
    rw [hlen]
    simp only [List.length_append, List.length_cons]
    omega
  rw [← hh0, e1, scan_skip s x _ pre preV _ _ (dlseg_seg s _ _ _ _ _ _ hA) hx]
  simp [remove_scan, hpay]

theorem remove_active (s : link_list) (x : Ptr) (pre post : List Nat) (preV postV : List Ptr)
    (tn : Nat)
    (hchain : Dlseg s s.head_node none none s.tail_node (pre ++ tn :: post)
      (preV ++ x :: postV))
    (hpre : pre.length = preV.length) (hx : x ∉ preV)
    (hnd : (pre ++ tn :: post).Nodup)
    (hlen : s.length = ((pre ++ tn :: post).length : Int))
    (hat : ∀ t, s.available_tail = some t → t ∉ pre ++ post) :
    (list_remove s x).2 = x ∧
    Dlseg (list_remove s x).1 (list_remove s x).1.head_node none none
      (list_remove s x).1.tail_node (pre ++ post) (preV ++ postV) := by
  obtain ⟨h0, hh0, hscan⟩ := remove_scan_finds s x pre post preV postV tn none hchain hpre hx hlen
  obtain ⟨m, q, hA, hB⟩ := dlseg_split s pre preV (tn :: post) (x :: postV) _ _ _ _ hpre hchain
  simp only [Dlseg] at hB
  obtain ⟨hm, hpay, hprev, hC⟩ := hB
  subst hm
  have hndA := List.nodup_append.mp hnd
  have hndpre : pre.Nodup := hndA.1
  have hndpost : post.Nodup := (List.nodup_cons.mp hndA.2.1).2
  have htn_post : tn ∉ post := (List.nodup_cons.mp hndA.2.1).1
  have htn_pre : tn ∉ pre := fun h => hndA.2.2 h (by simp)
  have hdisj : ∀ j, j ∈ pre → j ∉ post := fun j h1 h2 => hndA.2.2 h1 (List.mem_cons_of_mem _ h2)
  obtain ⟨r1, r2, r3, -, -, -, r7, r8, r9⟩ := list_remove_found s x h0 tn hh0 hscan
  refine ⟨by rw [r1, hpay], ?_⟩
  have hqpre : ∀ j, q = some j → j ∈ pre := by
    intro j hj
    cases pre with
    | nil =>
      have := (dlseg_nil s _ _ _ _ _ hA).2.2
      rw [← this] at hj
      simp at hj
    | cons i0 is =>
      obtain ⟨ql, h1, h2⟩ := dlseg_last_some s _ _ _ _ _ _ hA (by simp)
      rw [h1] at hj
      exact (Option.some.inj hj) ▸ h2
  have hnpost : ∀ j, s.next_node tn = some j → j ∈ post := by
    intro j hj
    cases post with
    | nil =>
      have := (dlseg_nil s _ _ _ _ _ hC).2.1
      rw [this] at hj
      simp at hj
    | cons n1 ps =>
      have := (dlseg_first s _ _ _ _ _ _ _ hC).1
      rw [this] at hj
      exact (Option.some.inj hj) ▸ List.mem_cons_self _ _
  refine dlseg_append _ pre preV post postV _ _ (s.next_node tn) q _ _ ?_ ?_
  · cases pre with
    | nil =>
      obtain ⟨hv, hhd, hqn⟩ := dlseg_nil s _ _ _ _ _ hA
      subst hv
      simp only [Dlseg]
      rw [r2, hprev, ← hqn, if_pos rfl]
      exact ⟨rfl, rfl⟩
    | cons i0 is =>
      obtain ⟨l, hl⟩ : ∃ l, (i0 :: is).getLast? = some l :=
        ⟨_, List.getLast?_eq_getLast _ (by simp)⟩
      have hlm : l ∈ i0 :: is := List.mem_of_getLast?_eq_some hl
      obtain ⟨hq, -⟩ := dlseg_last s _ _ _ _ _ _ l hA hl
      have hpl : s.prev_node tn = some l := by rw [hprev, hq]
      have hup := dlseg_update s (list_remove s x).1 (i0 :: is) preV _ _ _ _ i0 l hA
        (fun j hj => by
          have hji : j ≠ tn := fun h => htn_pre (h ▸ hj)
          rw [r7, if_neg hji])
        (fun j hj => by
          have hj2 := List.mem_of_mem_tail hj
          have hji : j ≠ tn := fun h => htn_pre (h ▸ hj2)
          have hjn : ¬ s.next_node tn = some j := fun h => hdisj j hj2 (hnpost j h)
          rw [r9, if_neg hji, if_neg hjn])
        (fun j hj => by
          have hj2 := List.mem_of_mem_dropLast hj
          have hji : j ≠ tn := fun h => htn_pre (h ▸ hj2)
          have hjt : ¬ s.available_tail = some j :=
            fun h => hat j h (List.mem_append_left _ hj2)
          have hjl : ¬ s.prev_node tn = some j := by
            rw [hpl]
            intro h
            exact last_not_mem_dropLast hndpre hl ((Option.some.inj h) ▸ hj)
          rw [r8, if_neg hjt, if_neg hji, if_neg hjl])
        rfl hl
      have hi0 : i0 ≠ tn := fun h => htn_pre (h ▸ List.mem_cons_self _ _)
      have hli : l ≠ tn := fun h => htn_pre (h ▸ hlm)
      have hlt : ¬ s.available_tail = some l := fun h => hat l h (List.mem_append_left _ hlm)
      have hi0n : ¬ s.next_node tn = some i0 :=
        fun h => hdisj i0 (List.mem_cons_self _ _) (hnpost i0 h)
      have hp0 : (list_remove s x).1.prev_node i0 = none := by
        rw [r9, if_neg hi0, if_neg hi0n]
        exact (dlseg_first s _ _ _ _ _ _ _ hA).2
      have hnl : (list_remove s x).1.next_node l = s.next_node tn := by
        rw [r8, if_neg hlt, if_neg hli, if_pos hpl]
      rw [hp0, hnl] at hup
      rw [r2, hpl, if_neg (by simp)]
      exact hup
  · cases post with
    | nil =>
      obtain ⟨hv, hne, htl⟩ := dlseg_nil s _ _ _ _ _ hC
      subst hv
      simp only [Dlseg]
      rw [r3, hne, if_pos rfl, hprev]
      exact ⟨rfl, rfl⟩
    | cons n1 ps =>
      obtain ⟨l, hl⟩ : ∃ l, (n1 :: ps).getLast? = some l :=
        ⟨_, List.getLast?_eq_getLast _ (by simp)⟩
      have hlm : l ∈ n1 :: ps := List.mem_of_getLast?_eq_some hl
      obtain ⟨hn1, -⟩ := dlseg_first s _ _ _ _ _ _ _ hC
      obtain ⟨-, hle⟩ := dlseg_last s _ _ _ _ _ _ l hC hl
      have hn1ps : n1 ∉ ps := (List.nodup_cons.mp hndpost).1
      have hup := dlseg_update s (list_remove s x).1 (n1 :: ps) postV _ _ _ _ n1 l hC
        (fun j hj => by
          have hji : j ≠ tn := fun h => htn_post (h ▸ hj)
          rw [r7, if_neg hji])
        (fun j hj => by
          simp only [List.tail_cons] at hj
          have hji : j ≠ tn := fun h => htn_post (h ▸ List.mem_cons_of_mem _ hj)
          have hjn : ¬ s.next_node tn = some j := by
            rw [hn1]
            intro h
            exact hn1ps ((Option.some.inj h) ▸ hj)
          rw [r9, if_neg hji, if_neg hjn])
        (fun j hj => by
          have hj2 := List.mem_of_mem_dropLast hj
          have hji : j ≠ tn := fun h => htn_post (h ▸ hj2)
          have hjt : ¬ s.available_tail = some j :=
            fun h => hat j h (List.mem_append_right _ hj2)
          have hjl : ¬ s.prev_node tn = some j := by
            rw [hprev]
            intro h
            exact hdisj j (hqpre j h) hj2
          rw [r8, if_neg hjt, if_neg hji, if_neg hjl])
        rfl hl
      have hn1tn : n1 ≠ tn := fun h => htn_post (h ▸ List.mem_cons_self _ _)
      have hli : l ≠ tn := fun h => htn_post (h ▸ hlm)
      have hlt : ¬ s.available_tail = some l := fun h => hat l h (List.mem_append_right _ hlm)
      have hlp : ¬ s.prev_node tn = some l := by
        rw [hprev]
        intro h
        exact hdisj l (hqpre l h) hlm
      have hp0 : (list_remove s x).1.prev_node n1 = q := by
        rw [r9, if_neg hn1tn, if_pos hn1, hprev]
      have hnl : (list_remove s x).1.next_node l = none := by
        rw [r8, if_neg hlt, if_neg hli, if_neg hlp]
        exact hle
      rw [hp0, hnl] at hup
      rw [r3, hn1, if_neg (by simp)]
      rw [hn1] at hup
      exact hup
/-! ## Well-formed lists -/

theorem Wf.nodup {s : link_list} {idxs : List Nat} {vals : List Ptr} {free : List Nat}
    (h : Wf s idxs vals free) : (idxs ++ free).Nodup :=
  (List.Perm.nodup_iff h.perm).mpr (List.nodup_range _)

theorem Wf.total {s : link_list} {idxs : List Nat} {vals : List Ptr} {free : List Nat}
    (h : Wf s idxs vals free) : idxs.length + free.length = MAX_LIST_NODES := by
  have := h.perm.length_eq
  simpa using this

theorem Wf.idxs_le {s : link_list} {idxs : List Nat} {vals : List Ptr} {free : List Nat}
    (h : Wf s idxs vals free) : idxs.length ≤ MAX_LIST_NODES := by
  have := h.total
  omega

theorem Wf.idxs_lt {s : link_list} {idxs : List Nat} {vals : List Ptr} {f0 : Nat}
    {frest : List Nat} (h : Wf s idxs vals (f0 :: frest)) : idxs.length < MAX_LIST_NODES := by
  have := h.total
  simp only [List.length_cons] at this
  omega

theorem Wf.vals_length {s : link_list} {idxs : List Nat} {vals : List Ptr} {free : List Nat}
    (h : Wf s idxs vals free) : vals.length = idxs.length :=
  (dlseg_length s _ _ _ _ _ _ h.chain).symm

theorem seg_range (s : link_list) (e : Option Nat) :
    ∀ (n a : Nat),
      (∀ i, a ≤ i → i < a + n →
        s.payload i = 0 ∧ s.next_node i = if i + 1 < a + n then some (i + 1) else e) →
      Seg s (if 0 < n then some a else e) e (List.range' a n) (List.replicate n 0)
  | 0, _, _ => by simp [Seg]
  | n + 1, a, h => by
    simp only [List.range'_succ, List.replicate_succ, Seg, Nat.zero_lt_succ, if_true]
    obtain ⟨h1, h2⟩ := h a (le_refl a) (by omega)
    refine ⟨trivial, h1, ?_⟩
    have hrec := seg_range s e n (a + 1) (fun i hi1 hi2 => by
      have := h i (by omega) (by omega)
      have e1 : a + (n + 1) = a + 1 + n := by omega
      rw [e1] at this
      exact this)
    rw [h2]
    have e2 : (a + 1 < a + (n + 1)) = (0 < n) := by
      apply propext
      constructor <;> intro h <;> omega
    simp only [e2]
    exact hrec

theorem wf_fresh (l : link_list) : Wf (fresh l) [] [] (List.range' 0 MAX_LIST_NODES) where
  chain := by simp [Dlseg, fresh, init_link_list]
  fchain := by
    have h := seg_range (fresh l) none MAX_LIST_NODES 0 (fun i _ hi => by
      rw [Nat.zero_add] at hi
      rw [Nat.zero_add]
      exact ⟨fresh_payload l i hi, fresh_next l i hi⟩)
    rw [if_pos MAX_LIST_NODES_pos] at h
    rw [List.length_range']
    exact h
  fprev := fun i hi => fresh_prev l i (by
    have := List.mem_range'_1.mp hi
    omega)
  ftail := fun _ => by
    have h1 : (fresh l).available_tail = some (MAX_LIST_NODES - 1) := rfl
    have h2 : (List.range' 0 MAX_LIST_NODES).getLast? = some (MAX_LIST_NODES - 1) := by decide
    rw [h1, h2]
  perm := by
    rw [List.nil_append, ← List.range_eq_range']
  len := rfl

theorem free_enq (s s1 : link_list) (free : List Nat) (n fl : Nat)
    (hf : Seg s s.available_nodes none free (List.replicate free.length 0))
    (hl : free.getLast? = some fl) (hnd : free.Nodup)
    (hav : s1.available_nodes = s.available_nodes)
    (hp : ∀ j ∈ free, s1.payload j = s.payload j)
    (hnx : ∀ j ∈ free, j ≠ fl → s1.next_node j = s.next_node j)
    (hfl : s1.next_node fl = some n)
    (hpn : s1.payload n = 0) (hnn : s1.next_node n = none) :
    Seg s1 s1.available_nodes none (free ++ [n])
      (List.replicate (free ++ [n]).length 0) := by
  have h1 := seg_update s s1 free _ _ _ fl hf hp
    (fun j hj => hnx j (List.mem_of_mem_dropLast hj)
      (fun h => last_not_mem_dropLast hnd hl (h ▸ hj))) hl
  rw [hfl, ← hav] at h1
  have h2 : Seg s1 (some n) none [n] [0] := by
    simp only [Seg]
    exact ⟨trivial, hpn, hnn⟩
  have h3 := seg_append s1 _ _ _ _ _ _ _ h1 h2
  have e1 : List.replicate (free ++ [n]).length 0 = List.replicate free.length 0 ++ [0] := by
    rw [List.length_append, List.length_singleton, List.replicate_succ']
  rw [e1]
  exact h3
theorem getLast?_cons_of_ne_nil (a : Nat) (l : List Nat) (h : l ≠ []) :
    (a :: l).getLast? = l.getLast? := by
  cases l with
  | nil => exact absurd rfl h
  | cons b l => rw [List.getLast?_cons_cons]

theorem wf_append (s : link_list) (idxs : List Nat) (vals : List Ptr) (f0 : Nat)
    (frest : List Nat) (p : Ptr) (h : Wf s idxs vals (f0 :: frest)) :
    ∃ s1, list_append s p = some (s1, 0) ∧ Wf s1 (idxs ++ [f0]) (vals ++ [p]) frest := by
  have hlt := h.idxs_lt
  have hf := h.fchain
  simp only [List.length_cons, List.replicate_succ, Seg] at hf
  obtain ⟨ha, -, hfrest⟩ := hf
  have hnd := List.nodup_append.mp h.nodup
  have hf0i : f0 ∉ idxs := fun hm => hnd.2.2 hm (List.mem_cons_self _ _)
  have hf0f : f0 ∉ frest := (List.nodup_cons.mp hnd.2.1).1
  have hdisj : ∀ j, j ∈ idxs → j ∉ frest :=
    fun j h1 h2 => hnd.2.2 h1 (List.mem_cons_of_mem _ h2)
  have hchain := h.chain
  have hperm : (idxs ++ [f0] ++ frest).Perm (List.range MAX_LIST_NODES) := by
    simpa using h.perm
  cases idxs with
  | nil =>
    obtain ⟨hv, hhd, htl⟩ := dlseg_nil s _ _ _ _ _ hchain
    subst hv
    obtain ⟨s1, h0, hh, ht, hav, hat, hl, -, -, hp, hn, hpv⟩ :=
      list_append_first s p f0 ha hhd
    refine ⟨s1, h0, ⟨?_, ?_, ?_, ?_, hperm, ?_⟩⟩
    · simp only [List.nil_append, Dlseg]
      refine ⟨hh, ?_, ?_, ?_, ht.symm⟩
      · rw [hp, if_pos rfl]
      · rw [hpv]
        exact h.fprev f0 (List.mem_cons_self _ _)
      · rw [hn, if_pos rfl]
    · rw [hav]
      refine seg_frame s s1 _ _ _ _ (fun j hj => ?_) hfrest
      have hj0 : j ≠ f0 := fun e => hf0f (e ▸ hj)
      rw [hp, hn, if_neg hj0, if_neg hj0]
      exact ⟨rfl, rfl⟩
    · intro j hj
      rw [hpv]
      exact h.fprev j (List.mem_cons_of_mem _ hj)
    · intro hne
      rw [hat, h.ftail (by simp), getLast?_cons_of_ne_nil _ _ hne]
    · rw [hl, h.len, wrap32_succ_small _ hlt]
      simp
  | cons i0 is =>
    obtain ⟨t, htl, htm⟩ := dlseg_last_some s _ _ _ _ _ _ hchain (by simp)
    obtain ⟨hhd, -⟩ := dlseg_first s _ _ _ _ _ _ _ hchain
    obtain ⟨s1, h0, hh, ht, hav, hat, hl, -, -, hp, hn, hpv⟩ :=
      list_append_more s p f0 i0 t ha hhd htl
    have htf : t ≠ f0 := fun e => hf0i (e ▸ htm)
    refine ⟨s1, h0, ⟨?_, ?_, ?_, ?_, hperm, ?_⟩⟩
    · rw [hh, ht, ← hhd]
      refine dlseg_append s1 _ _ _ _ _ _ (some f0) (some t) _ _ ?_ ?_
      · rw [htl] at hchain
        refine dlseg_relast s s1 none (some f0) t _ _ _ _ hchain (by simp) hnd.1 ?_ ?_ ?_
        · intro j hj
          have hj0 : j ≠ f0 := fun e => hf0i (e ▸ hj)
          rw [hp, hpv, if_neg hj0, if_neg hj0]
          exact ⟨rfl, rfl⟩
        · intro j hj hjt
          have hj0 : j ≠ f0 := fun e => hf0i (e ▸ hj)
          rw [hn, if_neg hjt, if_neg hj0]
        · rw [hn, if_pos rfl]
      · simp only [Dlseg]
        refine ⟨trivial, ?_, ?_, ?_, trivial⟩
        · rw [hp, if_pos rfl]
        · rw [hpv, if_pos rfl]
        · rw [hn, if_neg htf.symm, if_pos rfl]
    · rw [hav]
      refine seg_frame s s1 _ _ _ _ (fun j hj => ?_) hfrest
      have hj0 : j ≠ f0 := fun e => hf0f (e ▸ hj)
      have hjt : j ≠ t := fun e => hdisj t htm (e ▸ hj)
      rw [hp, hn, if_neg hj0, if_neg hjt, if_neg hj0]
      exact ⟨rfl, rfl⟩
    · intro j hj
      have hj0 : j ≠ f0 := fun e => hf0f (e ▸ hj)
      rw [hpv, if_neg hj0]
      exact h.fprev j (List.mem_cons_of_mem _ hj)
    · intro hne
      rw [hat, h.ftail (by simp), getLast?_cons_of_ne_nil _ _ hne]
    · rw [hl, h.len, wrap32_succ_small _ hlt]
      simp

theorem wf_push (s : link_list) (idxs : List Nat) (vals : List Ptr) (f0 : Nat)
    (frest : List Nat) (p : Ptr) (h : Wf s idxs vals (f0 :: frest)) :
    ∃ s1, list_push s p = (s1, 0) ∧ Wf s1 (f0 :: idxs) (p :: vals) frest := by
  have hlt := h.idxs_lt
  have hf := h.fchain
  simp only [List.length_cons, List.replicate_succ, Seg] at hf
  obtain ⟨ha, -, hfrest⟩ := hf
  have hnd := List.nodup_append.mp h.nodup
  have hf0i : f0 ∉ idxs := fun hm => hnd.2.2 hm (List.mem_cons_self _ _)
  have hf0f : f0 ∉ frest := (List.nodup_cons.mp hnd.2.1).1
  have hdisj : ∀ j, j ∈ idxs → j ∉ frest :=
    fun j h1 h2 => hnd.2.2 h1 (List.mem_cons_of_mem _ h2)
  have hchain := h.chain
  have hperm : (f0 :: idxs ++ frest).Perm (List.range MAX_LIST_NODES) := by
    refine List.Perm.trans ?_ h.perm
    have hmid : (idxs ++ f0 :: frest).Perm (f0 :: (idxs ++ frest)) := List.perm_middle
    simpa using hmid.symm
  cases idxs with
  | nil =>
    obtain ⟨hv, hhd, htl⟩ := dlseg_nil s _ _ _ _ _ hchain
    subst hv
    obtain ⟨s1, h0, hh, ht, hav, hat, hl, -, -, hp, hn, hpv⟩ :=
      list_push_first s p f0 ha hhd
    refine ⟨s1, h0, ⟨?_, ?_, ?_, ?_, hperm, ?_⟩⟩
    · simp only [Dlseg]
      refine ⟨hh, ?_, ?_, ?_, ht.symm⟩
      · rw [hp, if_pos rfl]
      · rw [hpv]
        exact h.fprev f0 (List.mem_cons_self _ _)
      · rw [hn, if_pos rfl]
    · rw [hav]
      refine seg_frame s s1 _ _ _ _ (fun j hj => ?_) hfrest
      have hj0 : j ≠ f0 := fun e => hf0f (e ▸ hj)
      rw [hp, hn, if_neg hj0, if_neg hj0]
      exact ⟨rfl, rfl⟩
    · intro j hj
      rw [hpv]
      exact h.fprev j (List.mem_cons_of_mem _ hj)
    · intro hne
      rw [hat, h.ftail (by simp), getLast?_cons_of_ne_nil _ _ hne]
    · rw [hl, h.len, wrap32_succ_small _ hlt]
      simp
  | cons i0 is =>
    cases vals with
    | nil => simp [Dlseg] at hchain
    | cons w ws =>
      simp only [Dlseg] at hchain
      obtain ⟨hhd, hw, hpr, hrest⟩ := hchain
      obtain ⟨s1, h0, hh, ht, hav, hat, hl, -, -, hp, hn, hpv⟩ :=
        list_push_more s p f0 i0 ha hhd
      have hi0f : i0 ≠ f0 := fun e => hf0i (e ▸ List.mem_cons_self _ _)
      have hi0is : i0 ∉ is := (List.nodup_cons.mp hnd.1).1
      refine ⟨s1, h0, ⟨?_, ?_, ?_, ?_, hperm, ?_⟩⟩
      · simp only [Dlseg]
        refine ⟨hh, ?_, ?_, ?_, ?_, ?_, ?_⟩
        · rw [hp, if_pos rfl]
        · rw [hpv, if_neg hi0f.symm]
          exact h.fprev f0 (List.mem_cons_self _ _)
        · rw [hn, if_pos rfl]
        · rw [hp, if_neg hi0f]
          exact hw
        · rw [hpv, if_pos rfl]
        · rw [hn, if_neg hi0f, ht]
          refine dlseg_frame s s1 _ _ _ _ _ _ ?_ hrest
          intro j hj
          have hj0 : j ≠ f0 := fun e => hf0i (e ▸ List.mem_cons_of_mem _ hj)
          have hji : j ≠ i0 := fun e => hi0is (e ▸ hj)
          rw [hp, hn, hpv, if_neg hj0, if_neg hj0, if_neg hji]
          exact ⟨rfl, rfl, rfl⟩
      · rw [hav]
        refine seg_frame s s1 _ _ _ _ (fun j hj => ?_) hfrest
        have hj0 : j ≠ f0 := fun e => hf0f (e ▸ hj)
        rw [hp, hn, if_neg hj0, if_neg hj0]
        exact ⟨rfl, rfl⟩
      · intro j hj
        have hji : j ≠ i0 := fun e => hdisj i0 (List.mem_cons_self _ _) (e ▸ hj)
        rw [hpv, if_neg hji]
        exact h.fprev j (List.mem_cons_of_mem _ hj)
      · intro hne
        rw [hat, h.ftail (by simp), getLast?_cons_of_ne_nil _ _ hne]
      · rw [hl, h.len, wrap32_succ_small _ hlt]
        simp
theorem dlseg_mid_links (s : link_list) (pre post : List Nat) (preV postV : List Ptr)
    (tn : Nat) (x : Ptr) (h p t : Option Nat)
    (hchain : Dlseg s h p none t (pre ++ tn :: post) (preV ++ x :: postV))
    (hpre : pre.length = preV.length) :
    (pre ≠ [] → ∀ j, s.prev_node tn = some j → j ∈ pre) ∧
    (pre = [] → s.prev_node tn = p) ∧
    (∀ j, s.next_node tn = some j → j ∈ post) := by
  obtain ⟨m, q, hA, hB⟩ := dlseg_split s pre preV (tn :: post) (x :: postV) _ _ _ _ hpre hchain
  simp only [Dlseg] at hB
  obtain ⟨-, -, hprev, hC⟩ := hB
  refine ⟨?_, ?_, ?_⟩
  · intro hne j hj
    obtain ⟨ql, h1, h2⟩ := dlseg_last_some s _ _ _ _ _ _ hA hne
    rw [hprev, h1] at hj
    exact (Option.some.inj hj) ▸ h2
  · intro hnil
    subst hnil
    rw [hprev]
    exact (dlseg_nil s _ _ _ _ _ hA).2.2.symm
  · intro j hj
    cases post with
    | nil =>
      have := (dlseg_nil s _ _ _ _ _ hC).2.1
      rw [this] at hj
      simp at hj
    | cons n1 ps =>
      have := (dlseg_first s _ _ _ _ _ _ _ hC).1
      rw [this] at hj
      exact (Option.some.inj hj) ▸ List.mem_cons_self _ _

theorem wf_pop (s : link_list) (i : Nat) (is : List Nat) (v : Ptr) (vs : List Ptr)
    (free : List Nat) (h : Wf s (i :: is) (v :: vs) free) (hne : free ≠ []) :
    (list_pop s).2 = v ∧ Wf (list_pop s).1 is vs (free ++ [i]) := by
  have hle := h.idxs_le
  obtain ⟨fl, hl⟩ : ∃ fl, free.getLast? = some fl := ⟨_, List.getLast?_eq_getLast _ hne⟩
  have hflm : fl ∈ free := List.mem_of_getLast?_eq_some hl
  have hat : s.available_tail = some fl := by rw [h.ftail hne, hl]
  have hnd := List.nodup_append.mp h.nodup
  have hi_is : i ∉ is := (List.nodup_cons.mp hnd.1).1
  have hi_free : i ∉ free := fun hm => hnd.2.2 (List.mem_cons_self _ _) hm
  have hdisj : ∀ j, j ∈ is → j ∉ free :=
    fun j h1 h2 => hnd.2.2 (List.mem_cons_of_mem _ h1) h2
  obtain ⟨hhd, -⟩ := dlseg_first s _ _ _ _ _ _ _ h.chain
  obtain ⟨-, -, hnext⟩ := dlseg_mid_links s [] is [] vs i v _ _ _ h.chain rfl
  obtain ⟨r1, r2, r3, r4, r5, r6, r7, r8, r9⟩ := list_pop_some s i hhd
  obtain ⟨hret, e1, hd1, he1⟩ := pop_active s i is v vs none h.chain hnd.1 (fun _ => rfl)
    (fun t ht hm => by
      rw [hat] at ht
      exact hdisj t (List.mem_of_mem_dropLast hm) ((Option.some.inj ht) ▸ hflm))
  have he : e1 = none := he1 (fun t ht hm => by
    rw [hat] at ht
    exact hdisj t hm ((Option.some.inj ht) ▸ hflm))
  subst he
  have hfli : fl ≠ i := fun e => hi_free (e ▸ hflm)
  refine ⟨hret, ⟨hd1, ?_, ?_, ?_, ?_, ?_⟩⟩
  · refine free_enq s _ free i fl h.fchain hl hnd.2.1 r4 ?_ ?_ ?_ ?_ ?_
    · intro j hj
      have hji : j ≠ i := fun e => hi_free (e ▸ hj)
      rw [r7, if_neg hji]
    · intro j hj hjfl
      have hji : j ≠ i := fun e => hi_free (e ▸ hj)
      have hjt : ¬ s.available_tail = some j := by
        rw [hat]
        intro e
        exact hjfl (Option.some.inj e).symm
      rw [r8, if_neg hjt, if_neg hji]
    · rw [r8, if_pos hat]
    · rw [r7, if_pos rfl]
    · have hit : ¬ s.available_tail = some i := by
        rw [hat]
        intro e
        exact hfli (Option.some.inj e)
      rw [r8, if_neg hit, if_pos rfl]
  · intro j hj
    rcases List.mem_append.mp hj with h1 | h1
    · have hji : j ≠ i := fun e => hi_free (e ▸ h1)
      have hjn : ¬ s.next_node i = some j := fun e => hdisj j (hnext j e) h1
      rw [r9, if_neg hji, if_neg hjn]
      exact h.fprev j h1
    · simp only [List.mem_singleton] at h1
      rw [r9, if_pos h1]
  · intro _
    rw [r5, List.getLast?_concat]
  · refine List.Perm.trans ?_ h.perm
    rw [List.perm_iff_count]
    intro a
    simp only [List.count_append, List.count_cons, List.count_nil]
    omega
  · rw [r6, h.len, wrap32_pred_small _ hle]
    simp

theorem wf_pop_tail (s : link_list) (is : List Nat) (i : Nat) (vs : List Ptr) (v : Ptr)
    (free : List Nat) (h : Wf s (is ++ [i]) (vs ++ [v]) free) (hne : free ≠ []) :
    (list_pop_tail s).2 = v ∧ Wf (list_pop_tail s).1 is vs (free ++ [i]) := by
  have hle := h.idxs_le
  obtain ⟨fl, hl⟩ : ∃ fl, free.getLast? = some fl := ⟨_, List.getLast?_eq_getLast _ hne⟩
  have hflm : fl ∈ free := List.mem_of_getLast?_eq_some hl
  have hat : s.available_tail = some fl := by rw [h.ftail hne, hl]
  have hlen : is.length = vs.length := by
    have := h.vals_length
    simp only [List.length_append, List.length_singleton] at this
    omega
  have hnd := List.nodup_append.mp h.nodup
  have hndA := List.nodup_append.mp hnd.1
  have hi_is : i ∉ is := fun hm => hndA.2.2 hm (by simp)
  have hi_free : i ∉ free := fun hm => hnd.2.2 (by simp) hm
  have hdisj : ∀ j, j ∈ is → j ∉ free :=
    fun j h1 h2 => hnd.2.2 (List.mem_append_left _ h1) h2
  obtain ⟨htl, -⟩ := dlseg_last s _ _ _ _ _ _ i h.chain (List.getLast?_concat _)
  obtain ⟨hprev1, hprev2, -⟩ := dlseg_mid_links s is [] vs [] i v _ _ _ h.chain hlen
  have hprev : ∀ j, s.prev_node i = some j → j ∈ is := by
    intro j hj
    by_cases hnil : is = []
    · rw [hprev2 hnil] at hj
      simp at hj
    · exact hprev1 hnil j hj
  obtain ⟨r1, r2, r3, r4, r5, r6, r7, r8, r9⟩ := list_pop_tail_some s i htl
  obtain ⟨hret, hd1⟩ := pop_tail_active s is i vs v none h.chain hlen hnd.1
    (fun t ht hm => by
      rw [hat] at ht
      exact hdisj t hm ((Option.some.inj ht) ▸ hflm))
  have hfli : fl ≠ i := fun e => hi_free (e ▸ hflm)
  refine ⟨hret, ⟨hd1, ?_, ?_, ?_, ?_, ?_⟩⟩
  · refine free_enq s _ free i fl h.fchain hl hnd.2.1 r4 ?_ ?_ ?_ ?_ ?_
    · intro j hj
      have hji : j ≠ i := fun e => hi_free (e ▸ hj)
      rw [r7, if_neg hji]
    · intro j hj hjfl
      have hji : j ≠ i := fun e => hi_free (e ▸ hj)
      have hjt : ¬ s.available_tail = some j := by
        rw [hat]
        intro e
        exact hjfl (Option.some.inj e).symm
      have hjp : ¬ s.prev_node i = some j := fun e => hdisj j (hprev j e) hj
      rw [r8, if_neg hjt, if_neg hji, if_neg hjp]
    · rw [r8, if_pos hat]
    · rw [r7, if_pos rfl]
    · have hit : ¬ s.available_tail = some i := by
        rw [hat]
        intro e
        exact hfli (Option.some.inj e)
      rw [r8, if_neg hit, if_pos rfl]
  · intro j hj
    rcases List.mem_append.mp hj with h1 | h1
    · have hji : j ≠ i := fun e => hi_free (e ▸ h1)
      rw [r9, if_neg hji]
      exact h.fprev j h1
    · simp only [List.mem_singleton] at h1
      rw [r9, if_pos h1]
  · intro _
    rw [r5, List.getLast?_concat]
  · refine List.Perm.trans ?_ h.perm
    rw [List.perm_iff_count]
    intro a
    simp only [List.count_append, List.count_cons, List.count_nil]
    omega
  · rw [r6, h.len, wrap32_pred_small _ hle]
    simp

theorem wf_remove (s : link_list) (x : Ptr) (pre post : List Nat) (preV postV : List Ptr)
    (tn : Nat) (free : List Nat)
    (h : Wf s (pre ++ tn :: post) (preV ++ x :: postV) free)
    (hpre : pre.length = preV.length) (hx : x ∉ preV) (hne : free ≠ []) :
    (list_remove s x).2 = x ∧
    Wf (list_remove s x).1 (pre ++ post) (preV ++ postV) (free ++ [tn]) := by
  have hle := h.idxs_le
  obtain ⟨fl, hl⟩ : ∃ fl, free.getLast? = some fl := ⟨_, List.getLast?_eq_getLast _ hne⟩
  have hflm : fl ∈ free := List.mem_of_getLast?_eq_some hl
  have hat : s.available_tail = some fl := by rw [h.ftail hne, hl]
  have hnd := List.nodup_append.mp h.nodup
  have hndA := List.nodup_append.mp hnd.1
  have htn_free : tn ∉ free := fun hm => hnd.2.2 (by simp) hm
  have hdisj1 : ∀ j, j ∈ pre → j ∉ free :=
    fun j h1 h2 => hnd.2.2 (List.mem_append_left _ h1) h2
  have hdisj2 : ∀ j, j ∈ post → j ∉ free :=
    fun j h1 h2 => hnd.2.2 (List.mem_append_right _ (List.mem_cons_of_mem _ h1)) h2
  obtain ⟨hprev1, hprev2, hnext⟩ :=
    dlseg_mid_links s pre post preV postV tn x _ _ _ h.chain hpre
  have hprev : ∀ j, s.prev_node tn = some j → j ∈ pre := by
    intro j hj
    by_cases hnil : pre = []
    · rw [hprev2 hnil] at hj
      simp at hj
    · exact hprev1 hnil j hj
  obtain ⟨h0, hh0, hscan⟩ :=
    remove_scan_finds s x pre post preV postV tn none h.chain hpre hx h.len
  obtain ⟨r1, r2, r3, r4, r5, r6, r7, r8, r9⟩ := list_remove_found s x h0 tn hh0 hscan
  obtain ⟨hret, hd1⟩ := remove_active s x pre post preV postV tn h.chain hpre hx hnd.1 h.len
    (fun t ht hm => by
      rw [hat] at ht
      have hft : fl = t := Option.some.inj ht
      rcases List.mem_append.mp hm with h1 | h1
      · exact hdisj1 t h1 (hft ▸ hflm)
      · exact hdisj2 t h1 (hft ▸ hflm))
  have hfltn : fl ≠ tn := fun e => htn_free (e ▸ hflm)
  refine ⟨hret, ⟨hd1, ?_, ?_, ?_, ?_, ?_⟩⟩
  · refine free_enq s _ free tn fl h.fchain hl hnd.2.1 r4 ?_ ?_ ?_ ?_ ?_
    · intro j hj
      have hji : j ≠ tn := fun e => htn_free (e ▸ hj)
      rw [r7, if_neg hji]
    · intro j hj hjfl
      have hji : j ≠ tn := fun e => htn_free (e ▸ hj)
      have hjt : ¬ s.available_tail = some j := by
        rw [hat]
        intro e
        exact hjfl (Option.some.inj e).symm
      have hjp : ¬ s.prev_node tn = some j := fun e => hdisj1 j (hprev j e) hj
      rw [r8, if_neg hjt, if_neg hji, if_neg hjp]
    · rw [r8, if_pos hat]
    · rw [r7, if_pos rfl]
    · have hit : ¬ s.available_tail = some tn := by
        rw [hat]
        intro e
        exact hfltn (Option.some.inj e)
      rw [r8, if_neg hit, if_pos rfl]
  · intro j hj
    rcases List.mem_append.mp hj with h1 | h1
    · have hji : j ≠ tn := fun e => htn_free (e ▸ h1)
      have hjn : ¬ s.next_node tn = some j := fun e => hdisj2 j (hnext j e) h1
      rw [r9, if_neg hji, if_neg hjn]
      exact h.fprev j h1
    · simp only [List.mem_singleton] at h1
      rw [r9, if_pos h1]
  · intro _
    rw [r5, List.getLast?_concat]
  · refine List.Perm.trans ?_ h.perm
    rw [List.perm_iff_count]
    intro a
    simp only [List.count_append, List.count_cons, List.count_nil]
    omega
  · rw [r6, h.len, wrap32_pred_small _ hle]
    simp only [List.length_append, List.length_cons]
    push_cast
    ring
/-! ## Each call against the abstract list -/

theorem split_at_length (idxs : List Nat) (n m : Nat) (h : idxs.length = n + (m + 1)) :
    ∃ pre tn post, idxs = pre ++ tn :: post ∧ pre.length = n := by
  have h1 : (idxs.drop n).length = m + 1 := by
    rw [List.length_drop]
    omega
  cases hd : idxs.drop n with
  | nil => rw [hd] at h1; simp at h1
  | cons tn post =>
    refine ⟨idxs.take n, tn, post, ?_, ?_⟩
    · rw [← hd, List.take_append_drop]
    · rw [List.length_take]
      omega

theorem wf_remove_missing (s : link_list) (idxs : List Nat) (vals : List Ptr)
    (free : List Nat) (x : Ptr) (h : Wf s idxs vals free) (hx : x ∉ vals) :
    list_remove s x = (s, 0) := by
  apply list_remove_missing
  have e1 : s.length.toNat = idxs.length + 0 := by
    rw [h.len]
    simp
  rw [e1, scan_skip s x 0 idxs vals _ _ (dlseg_seg s _ _ _ _ _ _ h.chain) hx]
  rfl

theorem wf_step (s : link_list) (idxs : List Nat) (vals : List Ptr) (free : List Nat)
    (op : Op) (h : Wf s idxs vals free) (hne : free ≠ []) :
    ∃ s1 idxs1 free1, step s op = some (s1, (model_step vals op).2) ∧
      Wf s1 idxs1 (model_step vals op).1 free1 := by
  cases op with
  | append p =>
    cases free with
    | nil => exact absurd rfl hne
    | cons f0 frest =>
      obtain ⟨s1, h0, h1⟩ := wf_append s idxs vals f0 frest p h
      exact ⟨s1, _, _, by simp [step, h0, model_step], h1⟩
  | push p =>
    cases free with
    | nil => exact absurd rfl hne
    | cons f0 frest =>
      obtain ⟨s1, h0, h1⟩ := wf_push s idxs vals f0 frest p h
      exact ⟨s1, _, _, by simp [step, h0, model_step], h1⟩
  | pop =>
    cases idxs with
    | nil =>
      obtain ⟨hv, hhd, -⟩ := dlseg_nil s _ _ _ _ _ h.chain
      subst hv
      exact ⟨s, [], free, by simp [step, list_pop_none s hhd, model_step], h⟩
    | cons i is =>
      cases vals with
      | nil => exact absurd h.chain (by simp [Dlseg])
      | cons v vs =>
        obtain ⟨h0, h1⟩ := wf_pop s i is v vs free h hne
        exact ⟨_, _, _, by simp [step, h0, model_step], h1⟩
  | pop_tail =>
    rcases List.eq_nil_or_concat idxs with hnil | ⟨is, i, hcons⟩
    · subst hnil
      obtain ⟨hv, -, htl⟩ := dlseg_nil s _ _ _ _ _ h.chain
      subst hv
      exact ⟨s, [], free, by simp [step, list_pop_tail_none s htl.symm, model_step], h⟩
    · rw [List.concat_eq_append] at hcons
      subst hcons
      rcases List.eq_nil_or_concat vals with hnil | ⟨vs, v, hcons⟩
      · subst hnil
        have := h.vals_length
        simp at this
      · rw [List.concat_eq_append] at hcons
        subst hcons
        obtain ⟨h0, h1⟩ := wf_pop_tail s is i vs v free h hne
        refine ⟨(list_pop_tail s).1, is, free ++ [i], ?_, ?_⟩
        · simp [step, h0, model_step]
        · simpa [model_step] using h1
  | remove t =>
    by_cases ht : t ∈ vals
    · obtain ⟨preV, postV, hL, hxpre⟩ := List.eq_append_cons_of_mem ht
      subst hL
      have hlen := h.vals_length
      simp only [List.length_append, List.length_cons] at hlen
      obtain ⟨pre, tn, post, hidx, hpre⟩ := split_at_length idxs preV.length postV.length hlen.symm
      subst hidx
      obtain ⟨h0, h1⟩ := wf_remove s t pre post preV postV tn free h hpre hxpre hne
      refine ⟨(list_remove s t).1, pre ++ post, free ++ [tn], ?_, ?_⟩
      · simp [step, h0, model_step]
      · simp only [model_step]
        rw [List.erase_append_right _ hxpre, List.erase_cons_head]
        exact h1
    · have h0 := wf_remove_missing s idxs vals free t h ht
      refine ⟨s, idxs, free, ?_, ?_⟩
      · simp [step, h0, model_step, ht]
      · simp only [model_step]
        rw [List.erase_of_not_mem ht]
        exact h
  | peek =>
    cases idxs with
    | nil =>
      obtain ⟨hv, hhd, -⟩ := dlseg_nil s _ _ _ _ _ h.chain
      subst hv
      exact ⟨s, [], free, by simp [step, list_peek, hhd, model_step], h⟩
    | cons i is =>
      cases vals with
      | nil => exact absurd h.chain (by simp [Dlseg])
      | cons v vs =>
        have hc := h.chain
        simp only [Dlseg] at hc
        exact ⟨s, _, free, by simp [step, list_peek, hc.1, hc.2.1, model_step], h⟩
/-! ## Runs of well-formed lists -/

theorem run_cons_some (s s1 : link_list) (op : Op) (ops : List Op) (r : Ret)
    (h : step s op = some (s1, r)) :
    run s (op :: ops) = (run s1 ops).map fun x => (x.1, r :: x.2) := by
  simp only [run, h]
  cases run s1 ops with
  | none => rfl
  | some y => rfl

theorem wf_run (ops : List Op) :
    ∀ (s : link_list) (idxs : List Nat) (vals : List Ptr) (free : List Nat),
      Wf s idxs vals free → free ≠ [] →
      (∀ k s1 rs, run s (ops.take k) = some (s1, rs) → s1.length < (MAX_LIST_NODES : Int)) →
      ∃ s1 idxs1 free1, run s ops = some (s1, (model_run vals ops).2) ∧
        Wf s1 idxs1 (model_run vals ops).1 free1 ∧ free1 ≠ [] := by
  induction ops with
  | nil =>
    intro s idxs vals free h hne _
    exact ⟨s, idxs, free, rfl, h, hne⟩
  | cons op ops ih =>
    intro s idxs vals free h hne hcap
    obtain ⟨s1, idxs1, free1, hstep, hwf1⟩ := wf_step s idxs vals free op h hne
    have hlt : s1.length < (MAX_LIST_NODES : Int) := by
      refine hcap 1 s1 [(model_step vals op).2] ?_
      simp [run, hstep]
    have hne1 : free1 ≠ [] := by
      intro hnil
      have h1 := hwf1.total
      have h2 := hwf1.len
      rw [hnil] at h1
      simp only [List.length_nil, Nat.add_zero] at h1
      rw [h2, h1] at hlt
      exact lt_irrefl _ hlt
    obtain ⟨s2, idxs2, free2, hrun, hwf2, hne2⟩ := ih s1 idxs1 _ free1 hwf1 hne1
      (fun k s2 rs hr => by
        refine hcap (k + 1) s2 ((model_step vals op).2 :: rs) ?_
        rw [List.take_succ_cons, run_cons_some s s1 op _ _ hstep, hr]
        rfl)
    refine ⟨s2, idxs2, free2, ?_, hwf2, hne2⟩
    rw [run_cons_some s s1 op _ _ hstep, hrun]
    rfl

theorem chain_payloads_seg (s : link_list) :
    ∀ (idxs : List Nat) (vals : List Ptr) (h : Option Nat) (n : Nat),
      Seg s h none idxs vals → idxs.length ≤ n → chain_payloads s n h = vals
  | [], [], _, n, hd, _ => by
    simp only [Seg] at hd
    subst hd
    cases n <;> rfl
  | [], _ :: _, _, _, hd, _ => by simp [Seg] at hd
  | _ :: _, [], _, _, hd, _ => by simp [Seg] at hd
  | i :: is, v :: vs, _, 0, _, hn => by simp at hn
  | i :: is, v :: vs, _, n + 1, hd, hn => by
    simp only [Seg] at hd
    obtain ⟨rfl, hv, hrest⟩ := hd
    simp only [chain_payloads, hv]
    rw [chain_payloads_seg s is vs _ n hrest (by simpa using hn)]

theorem chain_payloads_back_dlseg (s : link_list) (n : Nat) :
    ∀ (idxs : List Nat) (vals : List Ptr) (h e t : Option Nat),
      Dlseg s h none e t idxs vals → idxs.length ≤ n →
      chain_payloads_back s n t = vals.reverse := by
  induction n with
  | zero =>
    intro idxs vals h e t hd hn
    have h0 : idxs = [] := List.eq_nil_of_length_eq_zero (Nat.le_zero.mp hn)
    subst h0
    obtain ⟨hv, -, -⟩ := dlseg_nil s _ _ _ _ _ hd
    subst hv
    rfl
  | succ n ih =>
    intro idxs vals h e t hd hn
    rcases List.eq_nil_or_concat idxs with hnil | ⟨is, i, hcons⟩
    · subst hnil
      obtain ⟨hv, -, ht⟩ := dlseg_nil s _ _ _ _ _ hd
      subst hv
      subst ht
      rfl
    · rw [List.concat_eq_append] at hcons
      subst hcons
      rcases List.eq_nil_or_concat vals with hnil | ⟨vs, v, hcons⟩
      · subst hnil
        have := dlseg_length s _ _ _ _ _ _ hd
        simp at this
      · rw [List.concat_eq_append] at hcons
        subst hcons
        have hlen : is.length = vs.length := by
          have := dlseg_length s _ _ _ _ _ _ hd
          simp only [List.length_append, List.length_singleton] at this
          omega
        obtain ⟨m1, q, hA, hB⟩ := dlseg_split s is vs [i] [v] _ _ _ _ hlen hd
        simp only [Dlseg] at hB
        obtain ⟨-, hv, hpv, -, htl⟩ := hB
        rw [← htl]
        simp only [chain_payloads_back, hv, hpv, List.reverse_append, List.reverse_singleton,
          List.singleton_append]
        rw [ih is vs _ _ q hA (by
          simp only [List.length_append, List.length_singleton] at hn
          omega)]

theorem dlseg_ends (s s2 : link_list) (idxs : List Nat) (vals vals2 : List Ptr)
    (h h2 p e t t2 : Option Nat) (hd : Dlseg s h p e t idxs vals)
    (hd2 : Dlseg s2 h2 p e t2 idxs vals2) : h = h2 ∧ t = t2 := by
  rcases List.eq_nil_or_concat idxs with hnil | ⟨is, i, hcons⟩
  · subst hnil
    obtain ⟨-, h1, h3⟩ := dlseg_nil s _ _ _ _ _ hd
    obtain ⟨-, h4, h5⟩ := dlseg_nil s2 _ _ _ _ _ hd2
    exact ⟨h1.trans h4.symm, h3.symm.trans h5⟩
  · rw [List.concat_eq_append] at hcons
    subst hcons
    obtain ⟨i0, hi0⟩ := dlseg_head_some s _ _ _ _ _ _ hd (by simp)
    obtain ⟨j0, hj0⟩ := dlseg_head_some s2 _ _ _ _ _ _ hd2 (by simp)
    have hl1 := (dlseg_last s _ _ _ _ _ _ i hd (List.getLast?_concat _)).1
    have hl2 := (dlseg_last s2 _ _ _ _ _ _ i hd2 (List.getLast?_concat _)).1
    refine ⟨?_, hl1.trans hl2.symm⟩
    cases is with
    | nil =>
      have a1 := (dlseg_first s _ _ _ _ _ _ _ hd).1
      have a2 := (dlseg_first s2 _ _ _ _ _ _ _ hd2).1
      exact a1.trans a2.symm
    | cons x xs =>
      have a1 := (dlseg_first s _ _ _ _ _ _ _ hd).1
      have a2 := (dlseg_first s2 _ _ _ _ _ _ _ hd2).1
      exact a1.trans a2.symm

theorem wf_contents (s : link_list) (idxs : List Nat) (vals : List Ptr) (free : List Nat)
    (h : Wf s idxs vals free) : contents s = vals := by
  refine chain_payloads_seg s idxs vals _ _ (dlseg_seg s _ _ _ _ _ _ h.chain) ?_
  have := h.total
  omega
/-! ## Every reachable state -/

theorem step_exhausted (s s1 : link_list) (op : Op) (r : Ret)
    (ha : s.available_nodes = none) (h : step s op = some (s1, r)) :
    s1.available_nodes = none ∧
      (op.isInsert = true → r = Ret.status (-1) ∧ s1 = s) := by
  cases op with
  | append p =>
    simp only [step, list_append_full s p ha, Option.map_some', Option.some.injEq,
      Prod.mk.injEq] at h
    obtain ⟨rfl, rfl⟩ := h
    exact ⟨ha, fun _ => ⟨rfl, rfl⟩⟩
  | push p =>
    simp only [step, list_push_full s p ha, Option.some.injEq, Prod.mk.injEq] at h
    obtain ⟨rfl, rfl⟩ := h
    exact ⟨ha, fun _ => ⟨rfl, rfl⟩⟩
  | pop =>
    simp only [step, Option.some.injEq, Prod.mk.injEq] at h
    obtain ⟨rfl, -⟩ := h
    exact ⟨by rw [list_pop_available_nodes, ha], fun hi => by simp [Op.isInsert] at hi⟩
  | pop_tail =>
    simp only [step, Option.some.injEq, Prod.mk.injEq] at h
    obtain ⟨rfl, -⟩ := h
    exact ⟨by rw [list_pop_tail_available_nodes, ha], fun hi => by simp [Op.isInsert] at hi⟩
  | remove t =>
    simp only [step, Option.some.injEq, Prod.mk.injEq] at h
    obtain ⟨rfl, -⟩ := h
    exact ⟨by rw [list_remove_available_nodes, ha], fun hi => by simp [Op.isInsert] at hi⟩
  | peek =>
    have hp : list_peek s = (s, (list_peek s).2) := by
      simp only [list_peek]
      cases s.head_node <;> rfl
    simp only [step, Option.some.injEq, Prod.mk.injEq] at h
    obtain ⟨rfl, -⟩ := h
    rw [hp]
    exact ⟨ha, fun hi => by simp [Op.isInsert] at hi⟩

theorem inv_fresh (l : link_list) : Inv (fresh l) :=
  Or.inl ⟨[], [], _, wf_fresh l, by decide⟩

theorem inv_step (s s1 : link_list) (op : Op) (r : Ret) (hinv : Inv s)
    (h : step s op = some (s1, r)) : Inv s1 := by
  rcases hinv with ⟨idxs, vals, free, hwf, hne⟩ | ha
  · obtain ⟨s2, idxs1, free1, hstep, hwf1⟩ := wf_step s idxs vals free op hwf hne
    rw [hstep] at h
    simp only [Option.some.injEq, Prod.mk.injEq] at h
    obtain ⟨rfl, -⟩ := h
    by_cases hf : free1 = []
    · right
      subst hf
      have hfc := hwf1.fchain
      simp only [List.length_nil, List.replicate_zero, Seg] at hfc
      exact hfc
    · exact Or.inl ⟨idxs1, _, free1, hwf1, hf⟩
  · exact Or.inr (step_exhausted s s1 op r ha h).1

theorem inv_run (ops : List Op) :
    ∀ (s s1 : link_list) (rs : List Ret), Inv s → run s ops = some (s1, rs) → Inv s1 := by
  induction ops with
  | nil =>
    intro s s1 rs hinv h
    simp only [run, Option.some.injEq, Prod.mk.injEq] at h
    exact h.1 ▸ hinv
  | cons op ops ih =>
    intro s s1 rs hinv h
    cases hst : step s op with
    | none => simp [run, hst] at h
    | some x =>
      obtain ⟨l1, r⟩ := x
      rw [run_cons_some s l1 op ops r hst] at h
      cases hr : run l1 ops with
      | none => simp [hr] at h
      | some y =>
        obtain ⟨l2, rs2⟩ := y
        simp only [hr, Option.map_some', Option.some.injEq, Prod.mk.injEq] at h
        exact h.1 ▸ ih l1 l2 rs2 (inv_step s l1 op r hinv hst) hr

theorem run_exhausted (ops : List Op) :
    ∀ s : link_list, s.available_nodes = none →
      ∃ s1 rs, run s ops = some (s1, rs) ∧ s1.available_nodes = none := by
  induction ops with
  | nil =>
    intro s ha
    exact ⟨s, [], rfl, ha⟩
  | cons op ops ih =>
    intro s ha
    have hst : ∃ l1 r, step s op = some (l1, r) := by
      cases op with
      | append p => exact ⟨s, Ret.status (-1), by simp [step, list_append_full s p ha]⟩
      | push p => exact ⟨_, _, rfl⟩
      | pop => exact ⟨_, _, rfl⟩
      | pop_tail => exact ⟨_, _, rfl⟩
      | remove t => exact ⟨_, _, rfl⟩
      | peek => exact ⟨_, _, rfl⟩
    obtain ⟨l1, r, hst⟩ := hst
    obtain ⟨h1, -⟩ := step_exhausted s l1 op r ha hst
    obtain ⟨s2, rs, hr, h2⟩ := ih l1 h1
    exact ⟨s2, r :: rs, by rw [run_cons_some s l1 op ops r hst, hr]; rfl, h2⟩
theorem chain_nodes_seg (s : link_list) :
    ∀ (idxs : List Nat) (vals : List Ptr) (h : Option Nat) (n : Nat),
      Seg s h none idxs vals → idxs.length ≤ n → chain_nodes s n h = idxs
  | [], [], _, n, hd, _ => by
    simp only [Seg] at hd
    subst hd
    cases n <;> rfl
  | [], _ :: _, _, _, hd, _ => by simp [Seg] at hd
  | _ :: _, [], _, _, hd, _ => by simp [Seg] at hd
  | i :: is, v :: vs, _, 0, _, hn => by simp at hn
  | i :: is, v :: vs, _, n + 1, hd, hn => by
    simp only [Seg] at hd
    obtain ⟨rfl, hv, hrest⟩ := hd
    simp only [chain_nodes]
    rw [chain_nodes_seg s is vs _ n hrest (by simpa using hn)]

theorem fresh_index (l : link_list) (i : Nat) (hi : i < MAX_LIST_NODES) :
    (fresh l).index i = (i : Int) := by
  simp only [fresh, init_link_list, setAt_apply, init_loop_index]
  split_ifs <;> first | rfl | (subst_vars; rfl) | (exfalso; omega)

theorem peek_chain (s : link_list) (idxs : List Nat) (vals : List Ptr) (p e t : Option Nat)
    (hd : Dlseg s s.head_node p e t idxs vals) (hne : idxs ≠ []) :
    list_peek s = (s, vals.head?.getD 0) := by
  cases idxs with
  | nil => exact absurd rfl hne
  | cons i is =>
    cases vals with
    | nil => simp [Dlseg] at hd
    | cons v vs =>
      simp only [Dlseg] at hd
      simp [list_peek, hd.1, hd.2.1]
theorem list_push_available_tail (s : link_list) (p : Ptr) :
    (list_push s p).1.available_tail = s.available_tail := by
  cases ha : s.available_nodes with
  | none => rw [list_push_full s p ha]
  | some n =>
    cases hh : s.head_node with
    | none =>
      obtain ⟨s2, h2, -, -, -, hat, -⟩ := list_push_first s p n ha hh
      rw [h2]
      exact hat
    | some h0 =>
      obtain ⟨s2, h2, -, -, -, hat, -⟩ := list_push_more s p n h0 ha hh
      rw [h2]
      exact hat

theorem list_append_available_tail (s s1 : link_list) (p : Ptr) (c : Int)
    (h : list_append s p = some (s1, c)) : s1.available_tail = s.available_tail := by
  cases ha : s.available_nodes with
  | none =>
    rw [list_append_full s p ha] at h
    simp only [Option.some.injEq, Prod.mk.injEq] at h
    rw [← h.1]
  | some n =>
    cases hh : s.head_node with
    | none =>
      obtain ⟨s2, h2, -, -, -, hat, -⟩ := list_append_first s p n ha hh
      rw [h2] at h
      simp only [Option.some.injEq, Prod.mk.injEq] at h
      rw [← h.1]
      exact hat
    | some h0 =>
      cases ht : s.tail_node with
      | none => simp [list_append, deq_new_node, ha, hh, ht] at h
      | some t =>
        obtain ⟨s2, h2, -, -, -, hat, -⟩ := list_append_more s p n h0 t ha hh ht
        rw [h2] at h
        simp only [Option.some.injEq, Prod.mk.injEq] at h
        rw [← h.1]
        exact hat

theorem chain_contents (s : link_list) (idxs : List Nat) (vals : List Ptr) (p t : Option Nat)
    (hd : Dlseg s s.head_node p none t idxs vals) (hn : idxs.length ≤ MAX_LIST_NODES) :
    contents s = vals :=
  chain_payloads_seg s idxs vals _ _ (dlseg_seg s _ _ _ _ _ _ hd) hn
theorem length_of_run (s s1 : link_list) (ops : List Op) (rs : List Ret) (c : Int)
    (h : run s ops = some (s1, rs))
    (e : (run s ops).map (fun x => x.1.length) = some c) : s1.length = c := by
  rw [h] at e
  simpa using e

/-! ## A list that was full and has been emptied -/

theorem chain_nodes_to_seg (s : link_list) :
    ∀ (n : Nat) (h : Option Nat), (chain_nodes s n h).length < n →
      Seg s h none (chain_nodes s n h) (chain_payloads s n h)
  | 0, _, hl => by simp at hl
  | n + 1, none, _ => by simp [chain_nodes, chain_payloads, Seg]
  | n + 1, some c, hl => by
    simp only [chain_nodes, List.length_cons, Nat.add_lt_add_iff_right] at hl
    simp only [chain_nodes, chain_payloads, Seg]
    exact ⟨trivial, trivial, chain_nodes_to_seg s n _ hl⟩

theorem seg_of_chain_nodes (s : link_list) (n : Nat) (h : Option Nat) (idxs : List Nat)
    (e : chain_nodes s n h = idxs) (hl : idxs.length < n) :
    ∃ vals, Seg s h none idxs vals := by
  subst e
  exact ⟨_, chain_nodes_to_seg s n h hl⟩

set_option maxRecDepth 100000 in
theorem run_fill :
    run (fresh zeroed) fill_ops =
      some (full_list, List.replicate MAX_LIST_NODES (Ret.status 0)) := by
  have h1 : (run (fresh zeroed) fill_ops).map Prod.snd =
      some (List.replicate MAX_LIST_NODES (Ret.status 0)) := by
    decide!
  cases h : run (fresh zeroed) fill_ops with
  | none =>
    rw [h] at h1
    simp at h1
  | some x =>
    rw [h] at h1
    simp only [Option.map_some', Option.some.injEq] at h1
    have h2 : full_list = x.1 := by simp [full_list, h]
    rw [h2, ← h1]

set_option maxRecDepth 100000 in
theorem emptied_list_shape :
    chain_nodes emptied_list (MAX_LIST_NODES + 1) emptied_list.head_node =
        List.range MAX_LIST_NODES ∧
      emptied_list.available_tail = some (MAX_LIST_NODES - 1) ∧
      emptied_list.available_nodes = none ∧ emptied_list.length = 0 := by
  decide!

theorem recycling_emptied : Recycling emptied_list (List.range MAX_LIST_NODES) := by
  obtain ⟨h1, h2, -, -⟩ := emptied_list_shape
  have h3 := seg_of_chain_nodes _ _ _ _ h1
    (by rw [List.length_range]; exact Nat.lt_succ_self _)
  have h4 : (List.range MAX_LIST_NODES).getLast? = some (MAX_LIST_NODES - 1) := by decide
  have h5 : 2 ≤ (List.range MAX_LIST_NODES).length := by
    rw [List.length_range]
    decide
  exact ⟨h3, by rw [h2, h4], List.nodup_range _, h5⟩

theorem recycling_pop (s : link_list) (i : Nat) (rest : List Nat)
    (h : Recycling s (i :: rest)) :
    Recycling (list_pop s).1 (rest ++ [i]) ∧
      (list_pop s).1.length = wrap32 (s.length - 1) ∧
      (list_pop s).1.available_nodes = s.available_nodes ∧
      (list_pop s).2 = s.payload i := by
  obtain ⟨⟨vals, hseg⟩, hat, hnd, hlen⟩ := h
  cases vals with
  | nil => simp [Seg] at hseg
  | cons v vs =>
    simp only [Seg] at hseg
    obtain ⟨hh, -, hrest⟩ := hseg
    have hne : rest ≠ [] := by
      intro h0
      subst h0
      simp at hlen
    obtain ⟨fl, hl⟩ : ∃ fl, rest.getLast? = some fl := ⟨_, List.getLast?_eq_getLast _ hne⟩
    have hflm : fl ∈ rest := List.mem_of_getLast?_eq_some hl
    have hat2 : s.available_tail = some fl := by
      rw [hat, getLast?_cons_of_ne_nil _ _ hne, hl]
    have hi : i ∉ rest := (List.nodup_cons.mp hnd).1
    have hndr : rest.Nodup := (List.nodup_cons.mp hnd).2
    have hfli : fl ≠ i := fun e => hi (e ▸ hflm)
    obtain ⟨hret, hhead, -, hav, hatl, hlen2, hp, hn, -⟩ := list_pop_some s i hh
    have h1 := seg_update s (list_pop s).1 rest vs _ _ fl hrest
      (fun j hj => by
        have hji : j ≠ i := fun e => hi (e ▸ hj)
        rw [hp, if_neg hji])
      (fun j hj => by
        have hj2 : j ∈ rest := List.mem_of_mem_dropLast hj
        have hjfl : ¬ s.available_tail = some j := by
          rw [hat2]
          intro e
          exact last_not_mem_dropLast hndr hl ((Option.some.inj e) ▸ hj)
        have hji : j ≠ i := fun e => hi (e ▸ hj2)
        rw [hn, if_neg hjfl, if_neg hji])
      hl
    have hfl2 : (list_pop s).1.next_node fl = some i := by rw [hn, if_pos hat2]
    rw [hfl2, ← hhead] at h1
    have hati : ¬ s.available_tail = some i := by
      rw [hat2]
      intro e
      exact hfli (Option.some.inj e)
    have h2 : Seg (list_pop s).1 (some i) none [i] [0] := by
      simp only [Seg]
      exact ⟨trivial, by rw [hp, if_pos rfl], by rw [hn, if_neg hati, if_pos rfl]⟩
    have h3 := seg_append (list_pop s).1 _ _ _ _ _ _ _ h1 h2
    refine ⟨⟨⟨_, h3⟩, by rw [hatl, List.getLast?_concat], ?_, ?_⟩, hlen2, hav, hret⟩
    · exact List.nodup_append_comm.mp hnd
    · simp only [List.length_append, List.length_cons, List.length_nil] at hlen ⊢
      omega

theorem recycling_pops :
    ∀ (n : Nat) (s : link_list) (cyc : List Nat), Recycling s cyc →
      -2147483648 ≤ s.length → s.length < 2147483648 →
      (pops n s).1.length = wrap32 (s.length - (n : Int)) ∧
        (pops n s).1.available_nodes = s.available_nodes
  | 0, s, _, _, h1, h2 => by
    simp only [pops, Nat.cast_zero, sub_zero]
    exact ⟨(wrap32_of_range _ h1 h2).symm, trivial⟩
  | n + 1, s, cyc, h, h1, h2 => by
    cases cyc with
    | nil =>
      have := h.2.2.2
      simp at this
    | cons i rest =>
      obtain ⟨hr, hl, hav, -⟩ := recycling_pop s i rest h
      have hrg := wrap32_range (s.length - 1)
      obtain ⟨ih1, ih2⟩ := recycling_pops n (list_pop s).1 _ hr (by rw [hl]; exact hrg.1)
        (by rw [hl]; exact hrg.2)
      simp only [pops]
      refine ⟨?_, by rw [ih2, hav]⟩
      rw [ih1, hl]
      unfold wrap32
      push_cast
      omega

theorem run_emptied_pops (n : Nat) :
    ∃ rs, run (fresh zeroed)
        (fill_ops ++ List.replicate MAX_LIST_NODES Op.pop ++ List.replicate n Op.pop) =
        some ((pops n emptied_list).1, rs) ∧
      (pops n emptied_list).1.length = wrap32 (-(n : Int)) ∧
      (pops n emptied_list).1.available_nodes = none := by
  have h1 := run_fill
  have h2 : run full_list (List.replicate MAX_LIST_NODES Op.pop) =
      some (emptied_list, (pops MAX_LIST_NODES full_list).2.map Ret.ptr) :=
    run_pops MAX_LIST_NODES full_list
  have h12 := run_append _ _ _ _ _ _ _ h1 h2
  have h3 := run_pops n emptied_list
  have h := run_append _ _ _ _ _ _ _ h12 h3
  obtain ⟨-, -, e0, e1⟩ := emptied_list_shape
  obtain ⟨h4, h5⟩ := recycling_pops n emptied_list _ recycling_emptied
    (by rw [e1]; decide) (by rw [e1]; decide)
  rw [e1, zero_sub] at h4
  exact ⟨_, h, h4, by rw [h5, e0]⟩

/-! ## The claims -/

/-- C5: on a freshly initialised container, any `MAX_LIST_NODES` insertions
(a mix of `list_append` and `list_push`, no removal in between) all return 0;
after them the length is `MAX_LIST_NODES`, and the next `list_append` and the
next `list_push` both return -1 and leave the list, so also its length, as it is. -/
theorem capacity_limit (list0 : link_list) (ops : List Op) (x y : Ptr)
    (hins : ∀ op ∈ ops, op.isInsert = true) (hlen : ops.length = MAX_LIST_NODES) :
    ∃ s, run (fresh list0) ops = some (s, List.replicate MAX_LIST_NODES (Ret.status 0)) ∧
      s.length = (MAX_LIST_NODES : Int) ∧
      list_append s x = some (s, -1) ∧ list_push s y = (s, -1) := by
  obtain ⟨s, idxs, vals, hrun, hs⟩ :=
    run_inserts ops (fresh list0) 0 [] [] (insState_fresh list0) hins (by omega)
  have hav : s.available_nodes = none := by
    rw [hs.avail, if_neg (by omega)]
  refine ⟨s, ?_, ?_, list_append_full s x hav, list_push_full s y hav⟩
  · rw [hrun, hlen]
  · rw [hs.len, hlen]
    simp

/-- Witness of C5: one hundred alternating calls, `list_append` of an odd
reference and `list_push` of an even one. -/
theorem capacity_limit_witness :
    ∃ s, run (fresh zeroed)
        ((List.range 100).map fun i => if i % 2 = 0 then Op.append (i + 1) else Op.push (i + 1)) =
          some (s, List.replicate MAX_LIST_NODES (Ret.status 0)) ∧
      s.length = (MAX_LIST_NODES : Int) ∧
      list_append s 777 = some (s, -1) ∧ list_push s 778 = (s, -1) :=
  capacity_limit zeroed
    ((List.range 100).map fun i => if i % 2 = 0 then Op.append (i + 1) else Op.push (i + 1))
    777 778 (by decide) (by decide)

/-- C6: for every container state, `list_append` and `list_push` return -1
exactly when `available_nodes` is `NULL`, and a call that returns -1 hands back
the very state it was given (every map of the node array, head, tail, both ends
of the free chain, size and length). -/
theorem insert_failure_atomic (s : link_list) (x : Ptr) :
    (s.available_nodes = none → list_append s x = some (s, -1) ∧ list_push s x = (s, -1)) ∧
    (s.available_nodes ≠ none →
      (∀ s1, list_append s x ≠ some (s1, -1)) ∧ (list_push s x).2 ≠ -1) ∧
    (∀ s1, list_append s x = some (s1, -1) → s1 = s) ∧
    ((list_push s x).2 = -1 → (list_push s x).1 = s) := by
  have hfull : s.available_nodes = none →
      list_append s x = some (s, -1) ∧ list_push s x = (s, -1) :=
    fun ha => ⟨list_append_full s x ha, list_push_full s x ha⟩
  have hfree : s.available_nodes ≠ none →
      (∀ s1, list_append s x ≠ some (s1, -1)) ∧ (list_push s x).2 ≠ -1 := by
    intro ha
    obtain ⟨n, hn⟩ := Option.ne_none_iff_exists'.mp ha
    constructor
    · intro s1 h1
      cases hh : s.head_node with
      | none =>
        obtain ⟨s2, h2, _⟩ := list_append_first s x n hn hh
        rw [h2] at h1
        simp at h1
      | some h =>
        cases ht : s.tail_node with
        | none => simp [list_append, deq_new_node, hn, hh, ht] at h1
        | some t =>
          obtain ⟨s2, h2, _⟩ := list_append_more s x n h t hn hh ht
          rw [h2] at h1
          simp at h1
    · cases hh : s.head_node with
      | none =>
        obtain ⟨s2, h2, _⟩ := list_push_first s x n hn hh
        rw [h2]
        simp
      | some h =>
        obtain ⟨s2, h2, _⟩ := list_push_more s x n h hn hh
        rw [h2]
        simp
  refine ⟨hfull, hfree, ?_, ?_⟩
  · intro s1 h1
    by_cases ha : s.available_nodes = none
    · rw [(hfull ha).1] at h1
      simp at h1
      exact h1.symm
    · exact absurd h1 ((hfree ha).1 s1)
  · intro h1
    by_cases ha : s.available_nodes = none
    · rw [(hfull ha).2]
    · exact absurd h1 (hfree ha).2

/-- C10: `list_peek` hands back the state it was given, returns `NULL` when
`head_node` is `NULL` and the head node's payload otherwise, and returns what a
`list_pop` called right after it returns. -/
theorem peek_pure (s : link_list) :
    (list_peek s).1 = s ∧
    (s.head_node = none → (list_peek s).2 = 0) ∧
    (∀ h, s.head_node = some h → (list_peek s).2 = s.payload h) ∧
    (list_pop (list_peek s).1).2 = (list_peek s).2 := by
  cases hh : s.head_node with
  | none => simp [list_peek, list_pop, hh]
  | some h => simp [list_peek, list_pop, hh]

/-- C3 (FIFO): for `1 ≤ K ≤ MAX_LIST_NODES` and `K` pairwise distinct non-null
references, `K` calls of `list_append` on a freshly initialised container all
return 0, and the `K` calls of `list_pop` that follow return the references in
the order they were appended. -/
theorem fifo_order (list0 : link_list) (L : List Ptr) (h1 : 1 ≤ L.length)
    (hN : L.length ≤ MAX_LIST_NODES) (hnn : ∀ p ∈ L, p ≠ 0) (hnd : L.Nodup) :
    ∃ s, run (fresh list0) (L.map Op.append ++ List.replicate L.length Op.pop) =
      some (s, List.replicate L.length (Ret.status 0) ++ L.map Ret.ptr) := by
  obtain ⟨s1, hrun, hs⟩ :=
    run_appends L (fresh list0) 0 [] [] (insState_fresh list0) (by omega)
  simp only [List.nil_append, Nat.zero_add] at hs
  have hseg := dlseg_seg s1 _ _ _ _ _ _ hs.chain
  have hp := pops_vals _ _ s1 none hseg hs.nodup (fun t ht hm => by
    rw [hs.atail] at ht
    have := mem_tail_dropLast_range' _ _ _ hm
    have ht2 : MAX_LIST_NODES - 1 = t := Option.some.inj ht
    omega)
  rw [List.length_range'] at hp
  refine ⟨(pops L.length s1).1, ?_⟩
  have h2 := run_pops L.length s1
  rw [hp.1] at h2
  exact run_append _ _ _ _ _ _ _ hrun h2

/-- Witness of C3: three references appended, then popped. -/
theorem fifo_order_witness :
    ∃ s, run (fresh zeroed) ([11, 22, 33].map Op.append ++ List.replicate 3 Op.pop) =
      some (s, List.replicate 3 (Ret.status 0) ++ [11, 22, 33].map Ret.ptr) :=
  fifo_order zeroed [11, 22, 33] (by decide) (by decide) (by decide) (by decide)

/-- C4 (LIFO): for `1 ≤ K ≤ MAX_LIST_NODES` and `K` pairwise distinct non-null
references, `K` calls of `list_push` on a freshly initialised container all
return 0, the `K` calls of `list_pop` that follow return the references in the
reverse of the push order, the length is then 0, and one more `list_pop`
returns `NULL` and leaves the list (so its length 0) as it is. -/
theorem lifo_order (list0 : link_list) (L : List Ptr) (h1 : 1 ≤ L.length)
    (hN : L.length ≤ MAX_LIST_NODES) (hnn : ∀ p ∈ L, p ≠ 0) (hnd : L.Nodup) :
    ∃ s, run (fresh list0) (L.map Op.push ++ List.replicate L.length Op.pop) =
        some (s, List.replicate L.length (Ret.status 0) ++ L.reverse.map Ret.ptr) ∧
      s.length = 0 ∧ list_pop s = (s, 0) := by
  obtain ⟨s1, hrun, hs⟩ :=
    run_pushes L (fresh list0) 0 [] [] (insState_fresh list0) (by omega)
  simp only [List.append_nil, Nat.zero_add] at hs
  have hseg := dlseg_seg s1 _ _ _ _ _ _ hs.chain
  have hat : ∀ t, s1.available_tail = some t → t ∉ (List.range' 0 L.length).reverse.tail := by
    intro t ht hm
    rw [hs.atail] at ht
    have := mem_tail_reverse_range' _ _ _ hm
    have ht2 : MAX_LIST_NODES - 1 = t := Option.some.inj ht
    omega
  have hp := pops_vals _ _ s1 none hseg hs.nodup
    (fun t ht hm => hat t ht (List.mem_of_mem_dropLast hm))
  have hh := pops_head _ _ s1 none hseg hs.nodup hat
  rw [List.length_reverse, List.length_range'] at hp hh
  refine ⟨(pops L.length s1).1, ?_, ?_, list_pop_none _ hh⟩
  · have h2 := run_pops L.length s1
    rw [hp.1] at h2
    exact run_append _ _ _ _ _ _ _ hrun h2
  · have hN2 : L.length ≤ 100 := hN
    rw [hp.2.1 (by rw [hs.len]) (by rw [hs.len]; omega), hs.len]
    simp

/-- Witness of C4: three references pushed, then popped. -/
theorem lifo_order_witness :
    ∃ s, run (fresh zeroed) ([11, 22, 33].map Op.push ++ List.replicate 3 Op.pop) =
        some (s, List.replicate 3 (Ret.status 0) ++ [11, 22, 33].reverse.map Ret.ptr) ∧
      s.length = 0 ∧ list_pop s = (s, 0) :=
  lifo_order zeroed [11, 22, 33] (by decide) (by decide) (by decide) (by decide)

/-- C7: for `1 ≤ K ≤ MAX_LIST_NODES`, any `K` non-null references `L` (repeats
allowed) appended to a freshly initialised container and any `x` occurring in
`L`: `list_remove(x)` returns `x`, the length becomes `K - 1`, and `K - 1`
calls of `list_pop` then return `L` with only its first occurrence of `x`
deleted; if `x` occurred exactly once, a second `list_remove(x)` returns `NULL`
and leaves the list (so its length `K - 1`) as it is. -/
theorem remove_first_occurrence (list0 : link_list) (L : List Ptr) (x : Ptr)
    (h1 : 1 ≤ L.length) (hN : L.length ≤ MAX_LIST_NODES) (hnn : ∀ p ∈ L, p ≠ 0)
    (hx : x ∈ L) :
    ∃ s1 s2 s3,
      run (fresh list0) (L.map Op.append) =
        some (s1, List.replicate L.length (Ret.status 0)) ∧
      list_remove s1 x = (s2, x) ∧ s2.length = (L.length : Int) - 1 ∧
      run s2 (List.replicate (L.length - 1) Op.pop) = some (s3, (L.erase x).map Ret.ptr) ∧
      (L.count x = 1 → list_remove s2 x = (s2, 0)) := by
  obtain ⟨preV, postV, hL, hxpre⟩ := List.eq_append_cons_of_mem hx
  obtain ⟨s1, hrun, hs⟩ :=
    run_appends L (fresh list0) 0 [] [] (insState_fresh list0) (by omega)
  simp only [List.nil_append, Nat.zero_add] at hs
  have hK : L.length = preV.length + (postV.length + 1) := by
    rw [hL]
    simp
  have hidx : List.range' 0 L.length =
      List.range' 0 preV.length ++ preV.length :: List.range' (preV.length + 1) postV.length := by
    rw [hK, ← List.range'_succ, Nat.add_comm preV.length (postV.length + 1),
      ← List.range'_append_1]
    simp
  have hchain := hs.chain
  have hnd := hs.nodup
  rw [hidx] at hchain hnd
  rw [hL] at hchain
  have hlt : ∀ j, j ∈ List.range' 0 preV.length ++ List.range' (preV.length + 1) postV.length →
      j < L.length ∧ j ≠ preV.length := by
    intro j hj
    rcases List.mem_append.mp hj with h | h
    · have := List.mem_range'_1.mp h
      omega
    · have := List.mem_range'_1.mp h
      omega
  have hdl : ∀ j,
      j ∈ (List.range' 0 preV.length ++ List.range' (preV.length + 1) postV.length).dropLast →
      j + 1 < L.length := by
    intro j hj
    by_cases hp0 : postV.length = 0
    · rw [hp0] at hj
      simp only [List.range'_zero, List.append_nil] at hj
      have := mem_dropLast_range' _ _ _ hj
      omega
    · have hne : List.range' (preV.length + 1) postV.length ≠ [] := by
        intro h
        have := congrArg List.length h
        simp at this
        exact hp0 (by simp [this])
      rw [List.dropLast_append_of_ne_nil _ hne] at hj
      rcases List.mem_append.mp hj with h | h
      · have := List.mem_range'_1.mp h
        omega
      · have := mem_dropLast_range' _ _ _ h
        omega
  obtain ⟨r1, r2, r3, r4, e1, hseg⟩ :=
    remove_chain s1 x _ _ preV postV preV.length hchain (by simp) hxpre hnd
      (by rw [hs.len]; simp [hK])
      (by
        have hN2 : L.length ≤ 100 := hN
        rw [hs.len]
        omega)
      (fun t ht hm => by
        rw [hs.atail] at ht
        have ht2 : MAX_LIST_NODES - 1 = t := Option.some.inj ht
        have := hdl t hm
        omega)
  have hnd2 : (List.range' 0 preV.length ++
      List.range' (preV.length + 1) postV.length).Nodup := by
    have h := List.nodup_append.mp hnd
    refine List.nodup_append.mpr ⟨h.1, (List.nodup_cons.mp h.2.1).2, ?_⟩
    intro a ha hb
    exact h.2.2 ha (List.mem_cons_of_mem _ hb)
  have hcnt : (List.range' 0 preV.length ++
      List.range' (preV.length + 1) postV.length).length = L.length - 1 := by
    simp [hK]
  have hp := pops_vals _ _ (list_remove s1 x).1 e1 hseg hnd2 (fun t ht hm => by
    rw [r3] at ht
    have ht2 : preV.length = t := Option.some.inj ht
    have := (hlt t (List.mem_of_mem_tail (List.mem_of_mem_dropLast hm))).2
    omega)
  rw [hcnt] at hp
  have hlen2 : (list_remove s1 x).1.length = (L.length : Int) - 1 := by
    rw [r2, hs.len]
  refine ⟨s1, (list_remove s1 x).1, (pops (L.length - 1) (list_remove s1 x).1).1, hrun,
    Prod.ext rfl r1, hlen2, ?_, ?_⟩
  · have h2 := run_pops (L.length - 1) (list_remove s1 x).1
    rw [hp.1] at h2
    rw [h2, hL, List.erase_append_right _ hxpre, List.erase_cons_head]
  · intro hc
    have hxpost : x ∉ postV := by
      rw [hL] at hc
      simp only [List.count_append, List.count_cons_self] at hc
      exact List.count_eq_zero.mp (by omega)
    apply list_remove_missing
    have e2 : (list_remove s1 x).1.length.toNat =
        (List.range' 0 preV.length ++
          List.range' (preV.length + 1) postV.length).length + 0 := by
      rw [hlen2, hcnt]
      omega
    rw [e2, scan_skip _ x 0 _ _ _ _ hseg (by
      intro h
      rcases List.mem_append.mp h with h | h
      · exact hxpre h
      · exact hxpost h)]
    rfl

/-- Witness of C7: `7` is appended twice; only its first occurrence goes. -/
theorem remove_first_occurrence_witness :
    ∃ s1 s2 s3,
      run (fresh zeroed) ([5, 7, 9, 7].map Op.append) =
        some (s1, List.replicate [5, 7, 9, 7].length (Ret.status 0)) ∧
      list_remove s1 7 = (s2, 7) ∧ s2.length = ([5, 7, 9, 7].length : Int) - 1 ∧
      run s2 (List.replicate ([5, 7, 9, 7].length - 1) Op.pop) =
        some (s3, ([5, 7, 9, 7].erase 7).map Ret.ptr) ∧
      ([5, 7, 9, 7].count 7 = 1 → list_remove s2 7 = (s2, 0)) :=
  remove_first_occurrence zeroed [5, 7, 9, 7] 7 (by decide) (by decide) (by decide) (by decide)

/-- C8: when the target is not identical to any reference stored in the list
(no payload among the `length` nodes of the chain from `head_node`),
`list_remove` returns `NULL` and hands back the very state it was given; this
holds in every state, so in every state reachable from `init_link_list`. -/
theorem remove_absent (s : link_list) (target : Ptr) (h : target ∉ stored s) :
    list_remove s target = (s, 0) :=
  list_remove_missing s target (scan_none_of_not_stored s target _ _ h)

/-- Witness of C8: `4` is not among the three references appended. -/
theorem remove_absent_witness :
    ∃ s, run (fresh zeroed) [Op.append 1, Op.append 2, Op.append 3] =
        some (s, [Ret.status 0, Ret.status 0, Ret.status 0]) ∧
      4 ∉ stored s ∧ list_remove s 4 = (s, 0) :=
  ⟨_, rfl, by decide, remove_absent _ 4 (by decide)⟩

set_option maxRecDepth 100000 in
/-- C1 (the code falls short of it): after `MAX_LIST_NODES` calls of
`list_append` that return 0 and one `list_pop` that returns the first reference,
the next `list_append` returns -1 and the length stays `MAX_LIST_NODES - 1`. -/
theorem recycled_slot_refused :
    (run (fresh zeroed) (fill_ops ++ [Op.pop, Op.append 777])).map
        (fun r => (r.1.length, r.2)) =
      some (99, List.replicate 100 (Ret.status 0) ++ [Ret.ptr 1, Ret.status (-1)]) := by
  decide!

set_option maxRecDepth 100000 in
/-- C2 (the code falls short of it): fill the list with `1, ..., 100`, pop the
head, remove the last reference `100`; the length is then 98 and the list holds
`2, ..., 99`, yet `list_pop_tail` returns `NULL` instead of `99`. -/
theorem pop_tail_loses_element :
    (run (fresh zeroed) (fill_ops ++ [Op.pop, Op.remove 100])).map
        (fun r => (r.1.length, r.2.drop 100, (list_pop_tail r.1).2)) =
      some (98, [Ret.ptr 1, Ret.ptr 100], 0) := by
  decide!

set_option maxRecDepth 100000 in
/-- C9 (the code falls short of it): fill the list and pop every element; the
length is 0, and one more `list_pop` (or `list_pop_tail`) returns `NULL` but
takes the length to -1. -/
theorem empty_pop_changes_length :
    (run (fresh zeroed) (fill_ops ++ List.replicate 100 Op.pop)).map
        (fun r => (r.1.length, r.2.drop 100,
          (list_pop r.1).2, (list_pop r.1).1.length,
          (list_pop_tail r.1).2, (list_pop_tail r.1).1.length)) =
      some (0, (List.range 100).map (fun i => Ret.ptr (i + 1)), 0, -1, 0, -1) := by
  decide!

/-- C11: for every prior content of the struct, `init_link_list` returns 0 and
leaves `length` 0, `size` `MAX_LIST_NODES`, `head_node` and `tail_node` `NULL`,
every node `i` with `index` `i`, payload `NULL` and `prev_node` `NULL`, and the
free chain from `available_nodes` visiting the nodes `0, 1, ..., N-1` in index
order by `next_node` links, ending at `available_tail`, node `N-1`, whose
`next_node` is `NULL`. -/
theorem init_postcondition (list : link_list) :
    (init_link_list list).2 = 0 ∧
    (init_link_list list).1.length = 0 ∧
    (init_link_list list).1.size = (MAX_LIST_NODES : Int) ∧
    (init_link_list list).1.head_node = none ∧
    (init_link_list list).1.tail_node = none ∧
    (∀ i, i < MAX_LIST_NODES →
      (init_link_list list).1.index i = (i : Int) ∧
      (init_link_list list).1.payload i = 0 ∧
      (init_link_list list).1.prev_node i = none) ∧
    Seg (init_link_list list).1 (init_link_list list).1.available_nodes none
      (List.range MAX_LIST_NODES) (List.replicate MAX_LIST_NODES 0) ∧
    chain_nodes (init_link_list list).1 (MAX_LIST_NODES + 1)
      (init_link_list list).1.available_nodes = List.range MAX_LIST_NODES ∧
    (init_link_list list).1.available_tail = some (MAX_LIST_NODES - 1) ∧
    (init_link_list list).1.next_node (MAX_LIST_NODES - 1) = none := by
  have hf := (wf_fresh list).fchain
  rw [List.length_range', ← List.range_eq_range'] at hf
  refine ⟨rfl, rfl, rfl, rfl, rfl, ?_, hf, ?_, rfl, ?_⟩
  · intro i hi
    exact ⟨fresh_index list i hi, fresh_payload list i hi, fresh_prev list i hi⟩
  · exact chain_nodes_seg _ _ _ _ _ hf (by simp)
  · have := fresh_next list (MAX_LIST_NODES - 1) (by decide)
    exact this.trans (by decide)

/-- C12: fill a freshly initialised container by `MAX_LIST_NODES` calls of
`list_append` with pairwise distinct non-null references `p0 .. p(N-1)`; then
`list_pop` returns `p0`, `list_peek` returns `p1`, `list_pop_tail` returns
`p(N-1)`, after which `length` is `N - 2` and the active chain, read from the
head by `next_node` links and from the tail by `prev_node` links, holds exactly
`p1 .. p(N-2)`. -/
theorem both_ends_of_full_list (list0 : link_list) (L : List Ptr)
    (hlen : L.length = MAX_LIST_NODES) (hnn : ∀ p ∈ L, p ≠ 0) (hnd : L.Nodup) :
    ∃ s, run (fresh list0) (L.map Op.append ++ [Op.pop, Op.peek, Op.pop_tail]) =
        some (s, List.replicate MAX_LIST_NODES (Ret.status 0) ++
          [Ret.ptr (L.head?.getD 0), Ret.ptr (L.tail.head?.getD 0),
            Ret.ptr (L.getLast?.getD 0)]) ∧
      s.length = (MAX_LIST_NODES : Int) - 2 ∧
      contents s = L.tail.dropLast ∧
      contents_back s = L.tail.dropLast.reverse := by
  obtain ⟨s1, hrun, hs⟩ :=
    run_appends L (fresh list0) 0 [] [] (insState_fresh list0) (by omega)
  simp only [List.nil_append, Nat.zero_add] at hs
  rw [hlen] at hs hrun
  -- the shape of the list and of the node sequence
  cases L with
  | nil => simp at hlen; exact absurd hlen (by decide)
  | cons a L1 =>
    rcases List.eq_nil_or_concat L1 with hnil | ⟨M, b, hcons⟩
    · subst hnil
      simp at hlen
      exact absurd hlen (by decide)
    · rw [List.concat_eq_append] at hcons
      subst hcons
      have hM : M.length = 98 := by
        simp only [List.length_cons, List.length_append, List.length_nil] at hlen
        have h100 : MAX_LIST_NODES = 100 := rfl
        rw [h100] at hlen
        omega
      have hidx : List.range' 0 MAX_LIST_NODES = 0 :: (List.range' 1 98 ++ [99]) := by decide
      have hchain := hs.chain
      have hnodup := hs.nodup
      rw [hidx] at hchain hnodup
      have hat1 : s1.available_tail = some 99 := hs.atail
      -- list_pop
      obtain ⟨hhd1, -⟩ := dlseg_first s1 _ _ _ _ _ _ _ hchain
      obtain ⟨-, -, -, -, q5, q6, -⟩ := list_pop_some s1 0 hhd1
      obtain ⟨hret1, e1, hd2, -⟩ := pop_active s1 0 _ a (M ++ [b]) none hchain hnodup
        (fun h => by simp at h)
        (fun t ht hm => by
          rw [hat1] at ht
          rw [List.dropLast_concat] at hm
          have := List.mem_range'_1.mp hm
          have ht2 : 99 = t := Option.some.inj ht
          omega)
      -- list_peek
      have hpeek := peek_chain _ _ _ _ _ _ hd2 (by simp)
      -- list_pop_tail
      have hnd2 := (List.nodup_cons.mp hnodup).2
      obtain ⟨htl2, -⟩ := dlseg_last _ _ _ _ _ _ _ 99 hd2 (List.getLast?_concat _)
      obtain ⟨-, -, -, -, -, p6, -⟩ := list_pop_tail_some _ 99 htl2
      obtain ⟨hret3, hd3⟩ := pop_tail_active (list_pop s1).1 (List.range' 1 98) 99 M b e1 hd2
        (by rw [List.length_range', hM]) hnd2
        (fun t ht hm => by
          rw [q5] at ht
          have := List.mem_range'_1.mp hm
          have ht2 : 0 = t := Option.some.inj ht
          omega)
      refine ⟨(list_pop_tail (list_pop s1).1).1, ?_, ?_, ?_, ?_⟩
      · refine run_append _ _ _ _ _ _ _ hrun ?_
        simp only [run, step, hpeek, hret1, hret3]
        cases M with
        | nil => simp at hM
        | cons c M2 =>
          simp only [List.cons_append, List.head?_cons, Option.getD_some, List.tail_cons]
          rw [← List.cons_append, ← List.cons_append, List.getLast?_concat]
          rfl
      · rw [p6, q6, hs.len]
        simp [wrap32, MAX_LIST_NODES]
      · simp only [List.tail_cons, List.dropLast_concat]
        exact chain_contents _ _ _ _ _ hd3 (by simp; decide)
      · simp only [List.tail_cons, List.dropLast_concat]
        exact chain_payloads_back_dlseg _ _ _ _ _ _ _ hd3 (by simp; decide)

/-- Witness of C12: the references `1, ..., 100`. -/
theorem both_ends_of_full_list_witness :
    ∃ s, run (fresh zeroed)
        ((List.range' 1 100).map Op.append ++ [Op.pop, Op.peek, Op.pop_tail]) =
        some (s, List.replicate MAX_LIST_NODES (Ret.status 0) ++
          [Ret.ptr ((List.range' 1 100).head?.getD 0),
            Ret.ptr ((List.range' 1 100).tail.head?.getD 0),
            Ret.ptr ((List.range' 1 100).getLast?.getD 0)]) ∧
      s.length = (MAX_LIST_NODES : Int) - 2 ∧
      contents s = (List.range' 1 100).tail.dropLast ∧
      contents_back s = (List.range' 1 100).tail.dropLast.reverse :=
  both_ends_of_full_list zeroed (List.range' 1 100) (by decide) (by decide)
    (List.nodup_range' 1 100)

/-- C13: in every state reached from `init_link_list` by public operations, if
`list_push(x)` returns 0 then a `list_pop` right after it returns `x` and brings
`length`, `head_node`, `tail_node` and the head-to-tail sequence of stored
payloads back to what they were before the push; and if `list_append(x)`
returns 0 then a `list_pop_tail` right after it returns `x` and brings them
back likewise. -/
theorem insert_remove_round_trip (list0 : link_list) (ops : List Op) (s : link_list)
    (rs : List Ret) (x : Ptr) (h : run (fresh list0) ops = some (s, rs)) :
    (∀ s1, list_push s x = (s1, 0) →
      (list_pop s1).2 = x ∧ (list_pop s1).1.length = s.length ∧
      (list_pop s1).1.head_node = s.head_node ∧ (list_pop s1).1.tail_node = s.tail_node ∧
      contents (list_pop s1).1 = contents s) ∧
    (∀ s1, list_append s x = some (s1, 0) →
      (list_pop_tail s1).2 = x ∧ (list_pop_tail s1).1.length = s.length ∧
      (list_pop_tail s1).1.head_node = s.head_node ∧
      (list_pop_tail s1).1.tail_node = s.tail_node ∧
      contents (list_pop_tail s1).1 = contents s) := by
  rcases inv_run ops _ _ _ (inv_fresh list0) h with ⟨idxs, vals, free, hwf, hne⟩ | ha
  · cases free with
    | nil => exact absurd rfl hne
    | cons f0 frest =>
      obtain ⟨fl, hl⟩ : ∃ fl, (f0 :: frest).getLast? = some fl :=
        ⟨_, List.getLast?_eq_getLast _ hne⟩
      have hflm : fl ∈ f0 :: frest := List.mem_of_getLast?_eq_some hl
      have hat : s.available_tail = some fl := by rw [hwf.ftail hne, hl]
      have hnd := List.nodup_append.mp hwf.nodup
      have hfl : fl ∉ idxs := fun hm => hnd.2.2 hm hflm
      have hcnt : idxs.length ≤ MAX_LIST_NODES := by
        have := hwf.total
        omega
      constructor
      · intro s1 hp
        obtain ⟨s2, hp2, hw1⟩ := wf_push s idxs vals f0 frest x hwf
        rw [hp2] at hp
        simp only [Prod.mk.injEq, and_true] at hp
        subst hp
        have hat1 : s2.available_tail = some fl := by
          have := list_push_available_tail s x
          rw [hp2] at this
          rw [this, hat]
        have hnd1 := (List.nodup_append.mp hw1.nodup).1
        obtain ⟨hret, e1, hd1, he1⟩ := pop_active s2 f0 idxs x vals none hw1.chain hnd1
          (fun _ => rfl)
          (fun t ht hm => by
            rw [hat1] at ht
            exact hfl ((Option.some.inj ht) ▸ List.mem_of_mem_dropLast hm))
        have he : e1 = none := he1 (fun t ht hm => by
          rw [hat1] at ht
          exact hfl ((Option.some.inj ht) ▸ hm))
        subst he
        obtain ⟨hhd, -⟩ := dlseg_first s2 _ _ _ _ _ _ _ hw1.chain
        have hlen := (list_pop_some s2 f0 hhd).2.2.2.2.2.1
        obtain ⟨e1, e2⟩ := dlseg_ends _ _ _ _ _ _ _ _ _ _ _ hd1 hwf.chain
        refine ⟨hret, ?_, e1, e2, ?_⟩
        · rw [hlen, hw1.len, hwf.len, wrap32_pred_small _ hw1.idxs_le]
          simp
        · rw [chain_contents _ _ _ _ _ hd1 hcnt, chain_contents _ _ _ _ _ hwf.chain hcnt]
      · intro s1 hp
        obtain ⟨s2, hp2, hw1⟩ := wf_append s idxs vals f0 frest x hwf
        rw [hp2] at hp
        simp only [Option.some.injEq, Prod.mk.injEq, and_true] at hp
        subst hp
        have hat1 : s2.available_tail = some fl := by
          rw [list_append_available_tail s s2 x 0 hp2, hat]
        have hnd1 := (List.nodup_append.mp hw1.nodup).1
        have hlenv : idxs.length = vals.length := hwf.vals_length.symm
        obtain ⟨hret, hd1⟩ := pop_tail_active s2 idxs f0 vals x none hw1.chain hlenv hnd1
          (fun t ht hm => by
            rw [hat1] at ht
            exact hfl ((Option.some.inj ht) ▸ hm))
        obtain ⟨htl, -⟩ := dlseg_last s2 _ _ _ _ _ _ f0 hw1.chain (List.getLast?_concat _)
        have hlen := (list_pop_tail_some s2 f0 htl).2.2.2.2.2.1
        obtain ⟨e1, e2⟩ := dlseg_ends _ _ _ _ _ _ _ _ _ _ _ hd1 hwf.chain
        refine ⟨hret, ?_, e1, e2, ?_⟩
        · rw [hlen, hw1.len, hwf.len, wrap32_pred_small _ hw1.idxs_le]
          simp
        · rw [chain_contents _ _ _ _ _ hd1 hcnt, chain_contents _ _ _ _ _ hwf.chain hcnt]
  · constructor
    · intro s1 hp
      rw [list_push_full s x ha] at hp
      simp at hp
    · intro s1 hp
      rw [list_append_full s x ha] at hp
      simp at hp

/-- Witness of C13: the state after two appends. -/
theorem insert_remove_round_trip_witness :
    ∃ s rs, run (fresh zeroed) [Op.append 1, Op.append 2] = some (s, rs) ∧
      ((∀ s1, list_push s 3 = (s1, 0) →
        (list_pop s1).2 = 3 ∧ (list_pop s1).1.length = s.length ∧
        (list_pop s1).1.head_node = s.head_node ∧ (list_pop s1).1.tail_node = s.tail_node ∧
        contents (list_pop s1).1 = contents s) ∧
      (∀ s1, list_append s 3 = some (s1, 0) →
        (list_pop_tail s1).2 = 3 ∧ (list_pop_tail s1).1.length = s.length ∧
        (list_pop_tail s1).1.head_node = s.head_node ∧
        (list_pop_tail s1).1.tail_node = s.tail_node ∧
        contents (list_pop_tail s1).1 = contents s)) :=
  ⟨_, _, rfl, insert_remove_round_trip zeroed [Op.append 1, Op.append 2] _ _ 3 rfl⟩

/-- C14: on a freshly initialised container, for every reference `x`,
`list_append(x)` followed by `list_pop` returns `x`, and `list_push(x)` followed
by `list_pop_tail` returns `x`; in both cases the container ends with `length`
0 and `head_node` and `tail_node` both `NULL`. -/
theorem single_element_round_trip (list0 : link_list) (x : Ptr) :
    (∃ s1, list_append (fresh list0) x = some (s1, 0) ∧ (list_pop s1).2 = x ∧
      (list_pop s1).1.length = 0 ∧ (list_pop s1).1.head_node = none ∧
      (list_pop s1).1.tail_node = none) ∧
    (∃ s1, list_push (fresh list0) x = (s1, 0) ∧ (list_pop_tail s1).2 = x ∧
      (list_pop_tail s1).1.length = 0 ∧ (list_pop_tail s1).1.head_node = none ∧
      (list_pop_tail s1).1.tail_node = none) := by
  have hw := wf_fresh list0
  have hr : List.range' 0 MAX_LIST_NODES = 0 :: List.range' 1 99 := by decide
  rw [hr] at hw
  have hne : List.range' 1 99 ≠ [] := by decide
  constructor
  · obtain ⟨s1, h0, h1⟩ := wf_append _ _ _ _ _ x hw
    obtain ⟨h2, h3⟩ := wf_pop s1 0 [] x [] _ h1 hne
    obtain ⟨-, h4, h5⟩ := dlseg_nil _ _ _ _ _ _ h3.chain
    exact ⟨s1, h0, h2, by rw [h3.len]; rfl, h4, h5.symm⟩
  · obtain ⟨s1, h0, h1⟩ := wf_push _ _ _ _ _ x hw
    obtain ⟨h2, h3⟩ := wf_pop_tail s1 [] 0 [] x _ h1 hne
    obtain ⟨-, h4, h5⟩ := dlseg_nil _ _ _ _ _ _ h3.chain
    exact ⟨s1, h0, h2, by rw [h3.len]; rfl, h4, h5.symm⟩

/-- C15 (the code falls short of it): fill the list, empty it by
`MAX_LIST_NODES` calls of `list_pop`, then call `list_pop` another `2^31 + 1`
times.  The head is never `NULL` again once the list has been full, so each of
these calls runs `length--`; the 32-bit `length` goes down from 0 to `-2^31` and
on the next call wraps to `2^31 - 1 = 2147483647`, above `MAX_LIST_NODES`. -/
theorem occupancy_ceiling_broken :
    ∃ s rs, run (fresh zeroed)
        (fill_ops ++ List.replicate MAX_LIST_NODES Op.pop ++
          List.replicate 2147483649 Op.pop) = some (s, rs) ∧
      s.length = 2147483647 ∧ (MAX_LIST_NODES : Int) < s.length := by
  obtain ⟨rs, h1, h2, -⟩ := run_emptied_pops 2147483649
  have h3 : wrap32 (-((2147483649 : Nat) : Int)) = 2147483647 := by decide
  rw [h3] at h2
  exact ⟨_, rs, h1, h2, by rw [h2]; decide⟩

set_option maxRecDepth 100000 in
/-- C16 (the code falls short of it): fill the list and pop once; `length` is
99 and no node is reachable from `available_nodes` (it is `NULL`), so the two
add up to 99, not `MAX_LIST_NODES`. -/
theorem node_conservation_broken :
    (run (fresh zeroed) (fill_ops ++ [Op.pop])).map
        (fun r => (r.1.length, r.1.available_nodes,
          (chain_nodes r.1 (MAX_LIST_NODES + 1) r.1.available_nodes).length)) =
      some (99, none, 0) := by
  decide!

set_option maxRecDepth 100000 in
/-- C17 (the code falls short of it): fill the list and pop once; `length` is
99, but following `next_node` from `head_node` meets 100 nodes, the 99 active
ones and then the freed node 0, before it reaches `NULL`. -/
theorem active_chain_count_broken :
    (run (fresh zeroed) (fill_ops ++ [Op.pop])).map
        (fun r => (r.1.length, chain_nodes r.1 (MAX_LIST_NODES + 1) r.1.head_node,
          (chain_nodes_back r.1 (MAX_LIST_NODES + 1) r.1.tail_node).length)) =
      some (99, List.range' 1 99 ++ [0], 99) := by
  decide!

set_option maxRecDepth 100000 in
/-- C18 (the code falls short of it): fill the list and pop every element;
`length` is 0 while `head_node` and `tail_node` are not `NULL`; and after
fill, pop, `list_remove(100)`, `list_pop_tail` both are `NULL` while `length`
is 97. -/
theorem emptiness_broken :
    (run (fresh zeroed) (fill_ops ++ List.replicate 100 Op.pop)).map
        (fun r => (r.1.length, r.1.head_node, r.1.tail_node)) = some (0, some 0, some 99) ∧
    (run (fresh zeroed) (fill_ops ++ [Op.pop, Op.remove 100, Op.pop_tail])).map
        (fun r => (r.1.length, r.1.head_node, r.1.tail_node)) = some (97, none, none) := by
  decide!

/-- C19: for every sequence of public operations on a freshly initialised
container in which `length` stays strictly below `MAX_LIST_NODES` after every
operation, the run goes through with the return values of the abstract list
model, the head-to-tail payload sequence is the model's list, `length` is its
length, and the list is well formed: the free chain holds exactly the other
`MAX_LIST_NODES - length` nodes, each with `NULL` payload and `NULL` prev. -/
theorem refinement_below_capacity (list0 : link_list) (ops : List Op)
    (hcap : ∀ k s1 rs, run (fresh list0) (ops.take k) = some (s1, rs) →
      s1.length < (MAX_LIST_NODES : Int)) :
    ∃ s idxs free,
      run (fresh list0) ops = some (s, (model_run [] ops).2) ∧
      contents s = (model_run [] ops).1 ∧
      s.length = ((model_run [] ops).1.length : Int) ∧
      Wf s idxs (model_run [] ops).1 free ∧
      free.length = MAX_LIST_NODES - (model_run [] ops).1.length := by
  obtain ⟨s, idxs, free, hrun, hwf, -⟩ :=
    wf_run ops (fresh list0) [] [] _ (wf_fresh list0) (by decide) hcap
  refine ⟨s, idxs, free, hrun, wf_contents s _ _ _ hwf, ?_, hwf, ?_⟩
  · rw [hwf.len, hwf.vals_length]
  · have := hwf.total
    rw [hwf.vals_length]
    omega

/-- Witness of C19: an append, a push and a pop from the tail. -/
theorem refinement_below_capacity_witness :
    ∃ s idxs free,
      run (fresh zeroed) [Op.append 5, Op.push 6, Op.pop_tail] =
        some (s, (model_run [] [Op.append 5, Op.push 6, Op.pop_tail]).2) ∧
      contents s = (model_run [] [Op.append 5, Op.push 6, Op.pop_tail]).1 ∧
      s.length = ((model_run [] [Op.append 5, Op.push 6, Op.pop_tail]).1.length : Int) ∧
      Wf s idxs (model_run [] [Op.append 5, Op.push 6, Op.pop_tail]).1 free ∧
      free.length =
        MAX_LIST_NODES - (model_run [] [Op.append 5, Op.push 6, Op.pop_tail]).1.length :=
  refinement_below_capacity zeroed [Op.append 5, Op.push 6, Op.pop_tail]
    (fun k s1 rs h => by
      rcases k with _ | _ | _ | k
      · rw [length_of_run _ _ _ _ 0 h rfl]
        decide
      · rw [length_of_run _ _ _ _ 1 h rfl]
        decide
      · rw [length_of_run _ _ _ _ 2 h rfl]
        decide
      · have h3 : run (fresh zeroed) [Op.append 5, Op.push 6, Op.pop_tail] = some (s1, rs) := by
          simpa using h
        rw [length_of_run _ _ _ _ 1 h3 rfl]
        decide)

/-- C20: `deq_new_node` never changes `available_tail` and `enq_new_node` never
changes `available_nodes`; so from a state whose `available_nodes` is `NULL`,
every sequence of public operations runs through, ends in a state whose
`available_nodes` is still `NULL`, and there `list_append` and `list_push`
return -1 and change nothing. -/
theorem permanent_exhaustion (s : link_list) (ops : List Op)
    (h : s.available_nodes = none) :
    (∀ (l : link_list) (n : Nat),
      (enq_new_node l n).available_nodes = l.available_nodes ∧
      (deq_new_node l).1.available_tail = l.available_tail) ∧
    ∃ s1 rs, run s ops = some (s1, rs) ∧ s1.available_nodes = none ∧
      ∀ x, list_append s1 x = some (s1, -1) ∧ list_push s1 x = (s1, -1) := by
  refine ⟨fun l n => ⟨enq_new_node_available_nodes l n, deq_new_node_available_tail l⟩, ?_⟩
  obtain ⟨s1, rs, hr, h1⟩ := run_exhausted ops s h
  exact ⟨s1, rs, hr, h1, fun x => ⟨list_append_full s1 x h1, list_push_full s1 x h1⟩⟩

set_option maxRecDepth 100000 in
/-- Witness of C20: the full list, then a pop, an append and a push. -/
theorem permanent_exhaustion_witness :
    full_list.available_nodes = none ∧
    ((∀ (l : link_list) (n : Nat),
      (enq_new_node l n).available_nodes = l.available_nodes ∧
      (deq_new_node l).1.available_tail = l.available_tail) ∧
    ∃ s1 rs, run full_list [Op.pop, Op.append 7, Op.push 8] = some (s1, rs) ∧
      s1.available_nodes = none ∧
      ∀ x, list_append s1 x = some (s1, -1) ∧ list_push s1 x = (s1, -1)) :=
  ⟨by decide!, permanent_exhaustion full_list [Op.pop, Op.append 7, Op.push 8] (by decide!)⟩

end Linklist
